import Mathlib

/-
Verification development for the slash-command subsystem of crush.

The Go sources are shallowly embedded over strings represented as
List Char.  Go regular-expression scans (package regexp, leftmost-first
semantics) are embedded as explicit left-to-right scanners; Go machine
integers are modelled as Nat with the 64-bit signed bound made explicit
where strconv.Atoi can fail (value out of range).  External collaborators
(the YAML library, the file system, the MIME sniffer, the fuzzy matcher,
the agent coordinator) are parameters of the embedded functions, as the
spec treats them as injected collaborators.
-/

set_option maxRecDepth 4096

/-! ### Basic string helpers (List Char versions of Go strings functions) -/

/-- Convert a Lean string literal to the List Char representation. -/
def chars (x : String) : List Char := x.toList

/-- strings.HasPrefix for char lists. -/
def startsList : List Char → List Char → Bool
  | [], _ => true
  | _ :: _, [] => false
  | p :: ps, c :: cs => p = c && startsList ps cs

/-- strings.HasSuffix for char lists. -/
def endsList (suf l : List Char) : Bool := startsList suf.reverse l.reverse

/-- strings.TrimSuffix for char lists. -/
def trimSufL (l suf : List Char) : List Char :=
  if endsList suf l then l.take (l.length - suf.length) else l

/-- strings.Index for char lists: index of the first occurrence of pat, none if absent. -/
def indexOfSub (pat : List Char) (l : List Char) : Option Nat :=
  match l with
  | [] => if pat.isEmpty then some 0 else none
  | _ :: rest =>
    if startsList pat l then some 0
    else match indexOfSub pat rest with
         | some i => some (i + 1)
         | none => none

/-- strings.Contains for char lists. -/
def containsSub (l pat : List Char) : Bool := (indexOfSub pat l).isSome

/-- unicode.IsSpace on the code points Go recognises as white space. -/
def goIsSpace (c : Char) : Bool :=
  c = ' ' || c = '\t' || c = '\n' || c = '\x0b' || c = '\x0c' || c = '\r' ||
  c = '\u0085' || c = ' ' ||
  c = ' ' ||
  (' ' ≤ c && c ≤ ' ') ||
  c = ' ' || c = ' ' || c = ' ' || c = ' ' || c = '　'

/-- strings.TrimSpace for char lists. -/
def goTrimSpace (l : List Char) : List Char :=
  ((l.dropWhile goIsSpace).reverse.dropWhile goIsSpace).reverse

/-- strings.Join for char lists. -/
def joinWith (sep : List Char) : List (List Char) → List Char
  | [] => []
  | [x] => x
  | x :: xs => x ++ sep ++ joinWith sep xs

/-- Decimal digits of a Nat, most significant first (fmt %d on a non-negative int). -/
def natChars (n : Nat) : List Char := Nat.toDigits 10 n

/-- Numeric value of a list of decimal digit characters. -/
def digitsVal (ds : List Char) : Nat :=
  ds.foldl (fun acc c => acc * 10 + (c.toNat - 48)) 0

/-- Largest value of the Go int type (64-bit platforms): 2^63 - 1. -/
def goMaxInt : Nat := 9223372036854775807

/-- strconv.Atoi applied to a non-empty all-digit string: the parsed value,
or none when the value overflows the 64-bit int range (strconv.ErrRange). -/
def goAtoiDigits (ds : List Char) : Option Nat :=
  if digitsVal ds ≤ goMaxInt then some (digitsVal ds) else none

/-! ### Argument engine (internal/commands/arguments.go)

The two regexp patterns are embedded as explicit scanners:
the positional pattern matches a dollar sign followed by a maximal
non-empty run of ASCII digits; the all-arguments pattern matches a
dollar sign followed by ARGS or ARGUMENTS (the leftmost-first
alternation tries ARGS first, which is also what the scanner does). -/

def argsWord : List Char := ['A', 'R', 'G', 'S']

def argumentsWord : List Char := ['A', 'R', 'G', 'U', 'M', 'E', 'N', 'T', 'S']


/-- Fueled scanner for the positional pattern; fuel at least the length of
the input makes the truncation case unreachable. -/
def posMatchesF : Nat → List Char → List (List Char)
  | 0, _ => []
  | _ + 1, [] => []
  | fuel + 1, c :: rest =>
    if c = '$' then
      let ds := rest.takeWhile Char.isDigit
      if ds.isEmpty then posMatchesF fuel rest
      else ds :: posMatchesF fuel (rest.drop ds.length)
    else posMatchesF fuel rest

/-- Captures of all matches of the positional pattern, in order
(regexp FindAllStringSubmatch, capture group 1 of each match). -/
def posMatches (l : List Char) : List (List Char) := posMatchesF l.length l

/-- Fueled replacement scanner for the positional pattern. -/
def replacePosF (f : List Char → List Char) : Nat → List Char → List Char
  | 0, l => l
  | _ + 1, [] => []
  | fuel + 1, c :: rest =>
    if c = '$' then
      let ds := rest.takeWhile Char.isDigit
      if ds.isEmpty then c :: replacePosF f fuel rest
      else f ds ++ replacePosF f fuel (rest.drop ds.length)
    else c :: replacePosF f fuel rest

/-- regexp ReplaceAllStringFunc for the positional pattern: f receives the
captured digit run, its result replaces the whole match and is not rescanned. -/
def replacePos (f : List Char → List Char) (l : List Char) : List Char :=
  replacePosF f l.length l

/-- MatchString of the all-arguments pattern. -/
def hasAllArgsL (l : List Char) : Bool :=
  match l with
  | [] => false
  | c :: rest =>
    if c = '$' then
      startsList argsWord rest || startsList argumentsWord rest || hasAllArgsL rest
    else hasAllArgsL rest

/-! Replacement-template expansion (regexp Expand), which Go applies to the
replacement string of ReplaceAllString.  For a pattern with no capture
groups, a template variable with numeric group 0 expands to the matched
text, every other variable expands to the empty string, a double dollar
sign expands to one dollar sign, and a malformed variable leaves the
dollar sign as literal text. -/

/-- Letter, digit or underscore (template variable name characters;
unicode letter classes are restricted here to ASCII, which is all the
claims exercise). -/
def isWordChar (c : Char) : Bool := c.isAlpha || c.isDigit || c = '_'

/-- The numeric value of an all-digit template variable name, mirroring
the capped parse in regexp extract: scanning stops with a non-numeric
verdict when a digit is read while the accumulator is already at least
10^8, or when a non-digit is met. -/
def numOfNameGo (acc : Nat) : List Char → Option Nat
  | [] => some acc
  | c :: cs =>
    if ¬ c.isDigit || acc ≥ 100000000 then none
    else numOfNameGo (acc * 10 + (c.toNat - 48)) cs

def numOfName (name : List Char) : Option Nat := numOfNameGo 0 name

/-- regexp extract on template text just after a dollar sign: the variable
name and the number of characters consumed, or none when malformed. -/
def extractVarName (l : List Char) : Option (List Char × Nat) :=
  if l.head? = some '{' then
    let r := l.tail
    let name := r.takeWhile isWordChar
    if name.isEmpty then none
    else if (r.drop name.length).head? = some '}' then some (name, name.length + 2)
    else none
  else
    let name := l.takeWhile isWordChar
    if name.isEmpty then none else some (name, name.length)

/-- Fueled regexp Expand of a replacement template against one match of
the all-arguments pattern: matched is the text of the match, tmpl the
replacement string. -/
def goExpandF (matched : List Char) : Nat → List Char → List Char
  | 0, tmpl => tmpl
  | _ + 1, [] => []
  | fuel + 1, c :: rest =>
    if c = '$' then
      if rest.head? = some '$' then '$' :: goExpandF matched fuel rest.tail
      else
        match extractVarName rest with
        | none => '$' :: goExpandF matched fuel rest
        | some (name, k) =>
          (if numOfName name = some 0 then matched else []) ++
            goExpandF matched fuel (rest.drop k)
    else c :: goExpandF matched fuel rest

def goExpand (matched tmpl : List Char) : List Char := goExpandF matched tmpl.length tmpl

/-- Fueled replacement scanner for the all-arguments pattern with
replacement template tmpl: each match (leftmost-first, trying ARGS before
ARGUMENTS) is replaced by the Expand of tmpl against it; replacements are
not rescanned. -/
def replaceAllArgsF (tmpl : List Char) : Nat → List Char → List Char
  | 0, l => l
  | _ + 1, [] => []
  | fuel + 1, c :: rest =>
    if c = '$' then
      if startsList argsWord rest then
        goExpand ('$' :: argsWord) tmpl ++ replaceAllArgsF tmpl fuel (rest.drop 4)
      else if startsList argumentsWord rest then
        goExpand ('$' :: argumentsWord) tmpl ++ replaceAllArgsF tmpl fuel (rest.drop 9)
      else c :: replaceAllArgsF tmpl fuel rest
    else c :: replaceAllArgsF tmpl fuel rest

/-- regexp ReplaceAllString for the all-arguments pattern. -/
def replaceAllArgsWith (tmpl l : List Char) : List Char := replaceAllArgsF tmpl l.length l

/-- hasArgumentPlaceholders (arguments.go): either pattern matches. -/
def hasArgumentPlaceholders (content : List Char) : Bool :=
  hasAllArgsL content || !(posMatches content).isEmpty

/-- hasAllRequiredArguments (arguments.go): the all-arguments pattern is
present, or nothing is required, or every position 1..requiredCount occurs
among the parsed positional references (a set of found positions whose
size must equal requiredCount). -/
def hasAllRequiredArguments (content : List Char) (requiredCount : Int) : Bool :=
  if hasAllArgsL content then true
  else if requiredCount ≤ 0 then true
  else
    let found := (((posMatches content).filterMap goAtoiDigits).filter
      (fun pos => 1 ≤ pos && pos ≤ requiredCount.toNat)).dedup
    found.length = requiredCount.toNat

/-- RequiredArguments (arguments.go). -/
structure RequiredArguments where
  hasAllArguments : Bool
  maxPositional : Nat
  requiredCount : Int
deriving DecidableEq, Repr

/-- Fueled scanner counting matches of the bracket pattern: a left
bracket, a non-empty run of characters other than a right bracket, then a
right bracket. -/
def countHintMatchesF : Nat → List Char → Nat
  | 0, _ => 0
  | _ + 1, [] => 0
  | fuel + 1, c :: rest =>
    if c = '[' then
      let run := rest.takeWhile (fun x => x ≠ ']')
      if run.isEmpty then countHintMatchesF fuel rest
      else if (rest.drop run.length).head? = some ']' then
        1 + countHintMatchesF fuel (rest.drop (run.length + 1))
      else 0
    else countHintMatchesF fuel rest

/-- countArgumentsFromHint (arguments.go). -/
def countArgumentsFromHint (hint : List Char) : Nat :=
  if hint.isEmpty then 0 else countHintMatchesF hint.length hint

/-- extractRequiredArguments (arguments.go). -/
def extractRequiredArguments (content hint : List Char) : RequiredArguments :=
  if hasAllArgsL content then
    { hasAllArguments := true, maxPositional := 0, requiredCount := -1 }
  else
    let ms := posMatches content
    let maxPos := ms.foldl
      (fun m ds => match goAtoiDigits ds with
        | some pos => if pos > m then pos else m
        | none => m) 0
    let contentArgCount := maxPos
    let hintArgCount := if hint.isEmpty then 0 else countArgumentsFromHint hint
    { hasAllArguments := false
      maxPositional := maxPos
      requiredCount :=
        if hintArgCount > contentArgCount then (hintArgCount : Int)
        else (contentArgCount : Int) }

/-- strings.Join(args, " "). -/
def joinSpace (args : List (List Char)) : List Char := joinWith [' '] args

/-- substituteArguments (arguments.go). -/
def substituteArguments (content : List Char) (args : List (List Char)) : List Char :=
  if args.isEmpty then
    replacePos (fun _ => []) (replaceAllArgsWith [] content)
  else
    replacePos (fun ds =>
      match goAtoiDigits ds with
      | none => '$' :: ds
      | some pos =>
        if pos ≥ 1 then (if pos - 1 < args.length then args.getD (pos - 1) [] else [])
        else []) (replaceAllArgsWith (joinSpace args) content)

example : substituteArguments (chars "Review PR $1 with priority $2")
    [chars "123", chars "high"] = chars "Review PR 123 with priority high" := by decide
example : substituteArguments (chars "Use $1 and $3") [chars "a", chars "b"] =
    chars "Use a and " := by decide
example : substituteArguments (chars "Review PR $ARGUMENTS") [chars "123", chars "high"] =
    chars "Review PR 123 high" := by decide
example : substituteArguments (chars "First: $ARGS, Second: $ARGUMENTS") [chars "test"] =
    chars "First: test, Second: test" := by decide
example : substituteArguments (chars "Process $ARGUMENTS") [] = chars "Process " := by decide
example : substituteArguments (chars "Total: $ARGS") [chars "price", chars "$100"] =
    chars "Total: price " := by decide
example : extractRequiredArguments (chars "Use $1 and $3") [] =
    { hasAllArguments := false, maxPositional := 3, requiredCount := 3 } := by decide
example : extractRequiredArguments (chars "Use $ARGS and $1") [] =
    { hasAllArguments := true, maxPositional := 0, requiredCount := -1 } := by decide
example : extractRequiredArguments (chars "do $1") (chars "[a] [b]") =
    { hasAllArguments := false, maxPositional := 1, requiredCount := 2 } := by decide
example : hasAllRequiredArguments (chars "Use $1 and $3") 3 = false := by decide
example : hasAllRequiredArguments (chars "Use $1 $2 $3") 3 = true := by decide

/-! ### Metadata-block parser (internal/commands/frontmatter.go)

The YAML library is an external collaborator: it is modelled as a
parameter (a partial function from the raw block to a parsed record,
none standing for an Unmarshal error). -/

structure Frontmatter where
  description : List Char
  argumentHint : List Char
  allowedTools : List (List Char)
deriving DecidableEq, Repr

def emptyFrontmatter : Frontmatter := { description := [], argumentHint := [], allowedTools := [] }

def bomChar : Char := '﻿'

/-- strings.TrimPrefix of the byte-order mark. -/
def stripBOM (l : List Char) : List Char :=
  if l.head? = some bomChar then l.tail else l

/-- strings.Split on a single separator character. -/
def splitOnChar (sep : Char) : List Char → List (List Char)
  | [] => [[]]
  | c :: rest =>
    let r := splitOnChar sep rest
    if c = sep then [] :: r
    else
      match r with
      | h :: t => (c :: h) :: t
      | [] => [[c]]

/-- The comma-splitting post-processing of the allowed-tools field: a
single entry containing a comma is split into trimmed non-empty parts. -/
def splitCommaTools (tools : List (List Char)) : List (List Char) :=
  match tools with
  | [t] =>
    if containsSub t [','] then
      ((splitOnChar ',' t).map goTrimSpace).filter (fun x => !x.isEmpty)
    else [t]
  | _ => tools

def openDelim : List Char := ['-', '-', '-']

def closeDelimMid : List Char := ['\n', '-', '-', '-', '\n']

def closeDelimEnd : List Char := ['\n', '-', '-', '-']

/-- The closing-delimiter search of ParseFrontmatter: index of the first
newline-delimited marker, else the end-of-document marker. -/
def fmClosingIndex (content : List Char) : Option Nat :=
  match indexOfSub closeDelimMid content with
  | some i => some i
  | none =>
    if endsList closeDelimEnd content then some (content.length - 4) else none

/-- ParseFrontmatter (frontmatter.go).  The error return of the Go
function is always nil, so the embedding returns the pair only. -/
def parseFrontmatter (yaml : List Char → Option Frontmatter) (content : List Char) :
    Frontmatter × List Char :=
  if content.isEmpty then (emptyFrontmatter, [])
  else
    let content := stripBOM content
    if ¬ startsList openDelim content then (emptyFrontmatter, content)
    else
      match fmClosingIndex content with
      | none => (emptyFrontmatter, content)
      | some closingIndex =>
        let yamlStart :=
          match indexOfSub ['\n'] content with
          | some i => i + 1
          | none => 0
        if yamlStart = 0 ∨ yamlStart > content.length then (emptyFrontmatter, content)
        else if closingIndex < yamlStart then (emptyFrontmatter, content)
        else
          let yamlEnd := min closingIndex content.length
          let yamlContent := goTrimSpace ((content.take yamlEnd).drop yamlStart)
          if yamlContent.isEmpty then (emptyFrontmatter, content)
          else
            let remainingStart := min (closingIndex + 5) content.length
            let remainingContent := goTrimSpace (content.drop remainingStart)
            match yaml yamlContent with
            | none => (emptyFrontmatter, content)
            | some fm =>
              ({ fm with allowedTools := splitCommaTools fm.allowedTools }, remainingContent)

/-! ### Path handling (Unix semantics of path/filepath)

filepath.Separator is the forward slash, so ToSlash and FromSlash are
identities and are omitted where the Go code applies them. -/

/-- The element loop of filepath.Clean: empty and dot elements are
dropped, dotdot pops a previous element (or is kept, or dropped when
rooted), anything else is pushed; the output stack is reversed. -/
def cleanFold (rooted : Bool) (segs : List (List Char)) : List (List Char) :=
  segs.foldl
    (fun acc seg =>
      if seg.isEmpty ∨ seg = ['.'] then acc
      else if seg = ['.', '.'] then
        match acc with
        | [] => if rooted then [] else [seg]
        | h :: t => if h = ['.', '.'] then seg :: h :: t else t
      else seg :: acc)
    []

/-- filepath.Clean (Unix). -/
def goCleanPath (p : List Char) : List Char :=
  if p.isEmpty then ['.']
  else if p.head? = some '/' then
    '/' :: joinWith ['/'] (cleanFold true (splitOnChar '/' p)).reverse
  else if (joinWith ['/'] (cleanFold false (splitOnChar '/' p)).reverse).isEmpty then ['.']
  else joinWith ['/'] (cleanFold false (splitOnChar '/' p)).reverse

example : goCleanPath (chars "a/b/../c") = chars "a/c" := by decide
example : goCleanPath (chars "../../x//y/") = chars "../../x/y" := by decide
example : goCleanPath (chars "/..") = chars "/" := by decide
example : goCleanPath (chars "./") = chars "." := by decide

/-- filepath.IsAbs (Unix). -/
def goIsAbs (p : List Char) : Bool := startsList ['/'] p

/-- filepath.Join of two elements (Unix): join the elements from the
first non-empty one with a slash, then Clean. -/
def goJoin2 (a b : List Char) : List Char :=
  if a.isEmpty && b.isEmpty then []
  else if a.isEmpty then goCleanPath b
  else goCleanPath (a ++ ['/'] ++ b)

/-- The last index of a character. -/
def lastIdxOfChar (c : Char) (l : List Char) : Option Nat :=
  match indexOfSub [c] l.reverse with
  | some j => some (l.length - 1 - j)
  | none => none

/-- filepath.Dir (Unix). -/
def goDirPath (p : List Char) : List Char :=
  match lastIdxOfChar '/' p with
  | none => goCleanPath []
  | some i => goCleanPath (p.take (i + 1))

/-- filepath.Base (Unix): trailing separators stripped, then the part
after the last separator. -/
def goBasePath (p : List Char) : List Char :=
  if p.isEmpty then ['.']
  else if ((p.reverse.dropWhile (fun c => c = '/')).reverse).isEmpty then ['/']
  else
    match lastIdxOfChar '/' ((p.reverse.dropWhile (fun c => c = '/')).reverse) with
    | some i => ((p.reverse.dropWhile (fun c => c = '/')).reverse).drop (i + 1)
    | none => (p.reverse.dropWhile (fun c => c = '/')).reverse

example : goDirPath (chars "frontend/components/button") = chars "frontend/components" := by decide
example : goBasePath (chars "frontend/components/button") = chars "button" := by decide
example : goDirPath (chars "button") = chars "." := by decide

/-- The slash-separated segments of a cleaned path (empty segments can
only arise from the leading slash of a rooted path). -/
def pathSegs (p : List Char) : List (List Char) :=
  (splitOnChar '/' p).filter (fun s => !s.isEmpty)

/-- Length of the common prefix of two segment lists. -/
def commonSegs : List (List Char) → List (List Char) → Nat
  | a :: as, b :: bs => if a = b then 1 + commonSegs as bs else 0
  | _, _ => 0

/-- filepath.Rel (Unix): none models the error return. -/
def goRel (basepath targpath : List Char) : Option (List Char) :=
  let base := goCleanPath basepath
  let targ := goCleanPath targpath
  if targ = base then some ['.']
  else
    let base := if base = ['.'] then [] else base
    let baseSlashed := base.head? = some '/'
    let targSlashed := targ.head? = some '/'
    if baseSlashed ≠ targSlashed then none
    else
      let bsegs := pathSegs base
      let tsegs := pathSegs targ
      let n := commonSegs bsegs tsegs
      let brem := bsegs.drop n
      let trem := tsegs.drop n
      if brem.head? = some ['.', '.'] then none
      else if brem.isEmpty then some (joinWith ['/'] trem)
      else some (joinWith ['/'] (brem.map (fun _ => ['.', '.']) ++ trem))

example : goRel (chars "cmds") (chars "cmds/frontend/components/button.md") =
    some (chars "frontend/components/button.md") := by decide
example : goRel (chars "/a/b") (chars "/a/c/d") = some (chars "../c/d") := by decide
example : goRel (chars "/a") (chars "b") = none := by decide
example : goRel (chars "a/b") (chars "a/b") = some (chars ".") := by decide

/-! ### Command names (internal/commands/name.go) -/

def mdSuf : List Char := ['.', 'm', 'd']

def mdSufU : List Char := ['.', 'M', 'D']

/-- The relative path of deriveCommandName: relative to the root when
filepath.Rel succeeds, the original path otherwise, with the trailing .md
then .MD suffix removed (filepath.ToSlash is the identity on Unix). -/
def relPathOf (path baseDir : List Char) : List Char :=
  trimSufL (trimSufL ((goRel baseDir path).getD path) mdSuf) mdSufU

/-- The namespace string: directory separators (and backslashes) become
colons. -/
def namespaceOf (dir : List Char) : List Char :=
  (dir.map (fun c => if c = '/' then ':' else c)).map (fun c => if c = '\\' then ':' else c)

/-- deriveCommandName (name.go): (name, namespace) from a path and the
loader root. -/
def deriveCommandName (path baseDir : List Char) : List Char × List Char :=
  if goDirPath (relPathOf path baseDir) = ['.'] ∨
      (goDirPath (relPathOf path baseDir)).isEmpty ∨
      goDirPath (relPathOf path baseDir) = ['/'] then
    (goBasePath (relPathOf path baseDir), [])
  else
    (namespaceOf (goDirPath (relPathOf path baseDir)) ++ [':'] ++
        goBasePath (relPathOf path baseDir),
      namespaceOf (goDirPath (relPathOf path baseDir)))

example : deriveCommandName (chars "cmds/frontend/components/button.md") (chars "cmds") =
    (chars "frontend:components:button", chars "frontend:components") := by decide
example : deriveCommandName (chars "cmds/review-pr.md") (chars "cmds") =
    (chars "review-pr", chars "") := by decide
example : deriveCommandName (chars "cmds/a.Md") (chars "cmds") =
    (chars "a.Md", chars "") := by decide
example : deriveCommandName (chars "cmds/a.MD.md") (chars "cmds") =
    (chars "a", chars "") := by decide

/-! ### File references (internal/commands/parser.go) -/

/-- The character class of the file-reference pattern: word characters,
dot, slash, backslash, hyphen. -/
def isFileRefChar (c : Char) : Bool :=
  c.isAlpha || c.isDigit || c = '_' || c = '.' || c = '/' || c = '\\' || c = '-'

/-- Fueled scanner for the file-reference pattern: an at sign followed by
a non-empty run of path characters; the capture is the run. -/
def fileRefMatchesF : Nat → List Char → List (List Char)
  | 0, _ => []
  | _ + 1, [] => []
  | fuel + 1, c :: rest =>
    if c = '@' then
      let run := rest.takeWhile isFileRefChar
      if run.isEmpty then fileRefMatchesF fuel rest
      else run :: fileRefMatchesF fuel (rest.drop run.length)
    else fileRefMatchesF fuel rest

/-- First-seen-order deduplication (the seen map of parseFileReferences). -/
def dedupKeepFirst (l : List (List Char)) : List (List Char) :=
  (l.foldl (fun acc r => if acc.contains r then acc else r :: acc) []).reverse

/-- parseFileReferences (parser.go). -/
def parseFileReferences (content : List Char) : List (List Char) :=
  let ms := fileRefMatchesF content.length content
  dedupKeepFirst ((ms.map goTrimSpace).filter (fun r => !r.isEmpty))

example : parseFileReferences (chars "Review @file.txt multiple times: @file.txt again") =
    [chars "file.txt"] := by decide
example : parseFileReferences (chars "Process @src/main.go and @../x.txt") =
    [chars "src/main.go", chars "../x.txt"] := by decide
example : parseFileReferences (chars "lone @ sign") = [] := by decide

/-- resolveFilePaths (parser.go) for one reference: normalize backslashes
to slashes, then clean an absolute reference, or clean and join a
relative one against the working directory. -/
def resolveOnePath (workingDir fp : List Char) : List Char :=
  if goIsAbs fp then goCleanPath (fp.map (fun c => if c = '\\' then '/' else c))
  else
    goCleanPath (goJoin2 workingDir
      (goCleanPath (fp.map (fun c => if c = '\\' then '/' else c))))

def resolveFilePaths (filePaths : List (List Char)) (workingDir : List Char) :
    List (List Char) :=
  filePaths.map (resolveOnePath workingDir)

example : resolveFilePaths [chars "file.txt", chars "../x/y.txt", chars "/abs/p.txt"]
    (chars "/project/sub") =
    [chars "/project/sub/file.txt", chars "/project/x/y.txt", chars "/abs/p.txt"] := by decide

/-! ### File reading (internal/commands/fileread.go)

The file system is an external dependency: it is a parameter mapping a
path to its content, none standing for any of the readSingleFile error
classes (not found, permission, directory, other).  readFileContents maps
a failed read to an entry with the path kept and empty content. -/

structure FileContent where
  path : List Char
  content : List Char
deriving DecidableEq, Repr

def readFileContents (fs : List Char → Option (List Char))
    (filePaths : List (List Char)) : List FileContent :=
  filePaths.map (fun p =>
    match fs p with
    | some c => { path := p, content := c }
    | none => { path := p, content := [] })

/-! ### Commands and the registry (command.go, registry implementation) -/

/-- Command (command.go); the namespace field is renamed nsp because
namespace is a Lean keyword. -/
structure Command where
  name : List Char
  nsp : List Char
  description : List Char
  argumentHint : List Char
  allowedTools : List (List Char)
  content : List Char
  path : List Char
  source : List Char
deriving DecidableEq, Repr, Inhabited

/-- buildSourceIndicator: source, or source:namespace. -/
def buildSourceIndicator (source ns : List Char) : List Char :=
  if ns.isEmpty then source else source ++ [':'] ++ ns

/-- The Go map string to Command is modelled as an association list in
which insertion replaces an existing binding in place. -/
def mapInsert (m : List (List Char × Command)) (c : Command) : List (List Char × Command) :=
  if m.any (fun kv => kv.1 = c.name) then
    m.map (fun kv => if kv.1 = c.name then (kv.1, c) else kv)
  else m ++ [(c.name, c)]

def mapLookup (m : List (List Char × Command)) (n : List Char) : Option Command :=
  (m.find? (fun kv => kv.1 = n)).map Prod.snd

/-- The map-building loop of LoadCommands: the merged slice is inserted
in order, a later command silently overwriting an earlier binding with
the same name. -/
def buildCommandsMap (allCommands : List Command) : List (List Char × Command) :=
  allCommands.foldl mapInsert []

/-- The values currently bound in the map. -/
def mapValues (m : List (List Char × Command)) : List Command := m.map Prod.snd

/-- Go ranges over the map to build the commandsList; the iteration order
of a Go map is unspecified, so any permutation of the bound values is a
possible commandsList. -/
def validIterationList (m : List (List Char × Command)) (l : List Command) : Prop :=
  (mapValues m).Perm l

structure RegistryState where
  commandsMap : List (List Char × Command)
deriving DecidableEq, Repr

/-- A loader outcome: the commands slice, or the error of a failed
loader (whose partial commands LoadCommands discards). -/
def loaderCommands : Except (List Char) (List Command) → List Command
  | .ok cs => cs
  | .error _ => []

def loaderErrs (label : List Char) : Except (List Char) (List Command) → List (List Char)
  | .ok _ => []
  | .error e => [label ++ chars ": " ++ e]

/-- LoadCommands over the three loader outcomes, lowest priority first:
XDG config, then user home, then project.  errors.Join renders the
collected errors joined by newlines.  The map is rebuilt from the merged
slice; the registry fails only when there were load errors and the merged
slice is empty. -/
def loadCommandsModel (xdg user proj : Except (List Char) (List Command)) :
    Except (List Char) RegistryState :=
  let loadErrors := loaderErrs (chars "XDG config commands") xdg ++
    loaderErrs (chars "user home commands") user ++
    loaderErrs (chars "project commands") proj
  let allCommands := loaderCommands xdg ++ loaderCommands user ++ loaderCommands proj
  if ¬ loadErrors.isEmpty ∧ allCommands.isEmpty then
    .error (joinWith ['\n'] loadErrors)
  else .ok { commandsMap := buildCommandsMap allCommands }

/-- FindCommand: exact map lookup (none models the not-found error). -/
def findCommandModel (st : RegistryState) (n : List Char) : Option Command :=
  mapLookup st.commandsMap n

/-! ### Argument validation and the executor (internal/commands/executor.go) -/

/-- validateArguments (executor.go); some msg models the error return. -/
def validateArguments (args : List (List Char)) (required : RequiredArguments)
    (commandName : List Char) : Option (List Char) :=
  if required.hasAllArguments then none
  else if required.requiredCount = 0 then
    if args.length > 0 then
      some (chars "command '" ++ commandName ++ chars "' does not accept arguments, but " ++
        natChars args.length ++ chars " argument(s) were provided")
    else none
  else if (args.length : Int) < required.requiredCount then
    let base := chars "command '" ++ commandName ++ chars "' requires " ++
      natChars required.requiredCount.toNat ++ chars " argument(s), but only " ++
      natChars args.length ++ chars " provided"
    let missingArgs := (List.range' (args.length + 1) (required.maxPositional - args.length)).map
      (fun i => '$' :: natChars i)
    if required.maxPositional > 0 ∧ ¬ missingArgs.isEmpty then
      some (base ++ chars ". Missing: " ++ joinWith (chars ", ") missingArgs)
    else some base
  else none

example : validateArguments [] { hasAllArguments := true, maxPositional := 0, requiredCount := -1 }
    (chars "c") = none := by decide
example : validateArguments [chars "x"]
    { hasAllArguments := false, maxPositional := 0, requiredCount := 0 } (chars "c") =
    some (chars "command 'c' does not accept arguments, but 1 argument(s) were provided") := by
  decide
example : validateArguments [chars "x"]
    { hasAllArguments := false, maxPositional := 3, requiredCount := 3 } (chars "c") =
    some (chars "command 'c' requires 3 argument(s), but only 1 provided. Missing: $2, $3") := by
  decide
example : validateArguments [chars "x"]
    { hasAllArguments := false, maxPositional := 1, requiredCount := 2 } (chars "c") =
    some (chars "command 'c' requires 2 argument(s), but only 1 provided") := by decide

/-- filepath.Ext (Unix): the suffix from the final dot of the final path
element, empty when there is no dot. -/
def goExt (p : List Char) : List Char :=
  let seg := p.reverse.takeWhile (fun c => c ≠ '/')
  let pre := seg.takeWhile (fun c => c ≠ '.')
  if pre.length = seg.length then [] else (seg.take (pre.length + 1)).reverse

example : goExt (chars "/a/b/file.txt") = chars ".txt" := by decide
example : goExt (chars "/a.b/README") = chars "" := by decide

/-- detectMimeType (attachment builder): content sniffing over the first
512 bytes and the extension table are external collaborators, passed as
the sniff and extMime parameters. -/
def detectMimeType (sniff extMime : List Char → List Char)
    (filePath content : List Char) : List Char :=
  let detected := sniff (content.take (min 512 content.length))
  if content.length > 0 ∧ detected ≠ chars "application/octet-stream" then detected
  else
    let m := extMime (goExt filePath)
    if ¬ m.isEmpty then m else chars "text/plain"

/-- message.Attachment as the executor builds it. -/
structure Attachment where
  filePath : List Char
  fileName : List Char
  mimeType : List Char
  content : List Char
deriving DecidableEq, Repr

/-- buildFileAttachments: entries with empty content are skipped. -/
def buildFileAttachments (sniff extMime : List Char → List Char)
    (fileContents : List FileContent) : List Attachment :=
  (fileContents.filter (fun fc => !fc.content.isEmpty)).map (fun fc =>
    { filePath := fc.path
      fileName := goBasePath fc.path
      mimeType := detectMimeType sniff extMime fc.path fc.content
      content := fc.content })

/-- The paths the executor counts as failed reads: empty content with a
non-empty path. -/
def failedPaths (fileContents : List FileContent) : List (List Char) :=
  (fileContents.filter (fun fc => fc.content.isEmpty && !fc.path.isEmpty)).map
    (fun fc => fc.path)

/-- The aggregated file-read error message, with singular wording for
exactly one failed path and plural wording otherwise. -/
def fileReadErrorMsg (fileErrors : List (List Char)) : List Char :=
  match fileErrors with
  | [e] => chars "failed to read referenced file: " ++ e
  | _ => chars "failed to read referenced file(s): " ++ joinWith (chars ", ") fileErrors

/-- The instruction wrapper prepended after substitution and reference
processing. -/
def execWrapper : List Char := chars "Execute this directly - do not analyze or search:\n\n"

/-- The observable outcome of Execute: an error return, a coordinator
Run call with the final prompt and attachments, or the help shortcut
(which goes to the message-creation collaborator and never to the
coordinator; the help text itself is outside the claims). -/
inductive ExecOutcome where
  | errorMsg (msg : List Char)
  | invoked (prompt : List Char) (attachments : List Attachment)
  | helpCreated
deriving DecidableEq, Repr

/-- The external collaborators of the executor: the file system, the
MIME sniffer and extension table, and the fuzzy matcher (returning ranked
matching candidates). -/
structure ExecEnv where
  fs : List Char → Option (List Char)
  sniff : List Char → List Char
  extMime : List Char → List Char
  suggest : List Char → List (List Char) → List (List Char)

/-- Steps 3 and 4 of Execute: substituted content, with the literal
Arguments trailer appended when arguments were supplied, the command does
not use the all-arguments placeholder, and not all required positions are
referenced in the original content. -/
def processedContentOf (cmd : Command) (args : List (List Char)) : List Char :=
  if ¬ args.isEmpty ∧
      (extractRequiredArguments cmd.content cmd.argumentHint).requiredCount ≠ -1 ∧
      ¬ hasAllRequiredArguments cmd.content
        (extractRequiredArguments cmd.content cmd.argumentHint).requiredCount then
    substituteArguments cmd.content args ++ chars "\n\nArguments: " ++ joinSpace args
  else substituteArguments cmd.content args

/-- The resolved absolute paths of the file references of the processed
content. -/
def resolvedPathsOf (cmd : Command) (args : List (List Char)) (workingDir : List Char) :
    List (List Char) :=
  resolveFilePaths (parseFileReferences (processedContentOf cmd args)) workingDir

/-- The read results over the resolved paths. -/
def fileContentsOf (fs : List Char → Option (List Char)) (cmd : Command)
    (args : List (List Char)) (workingDir : List Char) : List FileContent :=
  readFileContents fs (resolvedPathsOf cmd args workingDir)

/-- The not-found error message, embedding up to three fuzzy suggestions
and wrapping the registry error. -/
def notFoundMsg (env : ExecEnv) (st : RegistryState) (commandName : List Char) : List Char :=
  (if ((env.suggest commandName ((mapValues st.commandsMap).map
      (fun c => c.name))).take 3).isEmpty then
    chars "command '" ++ commandName ++ chars "' not found"
  else
    chars "command '" ++ commandName ++ chars "' not found" ++ chars ". Did you mean: " ++
      joinWith (chars ", ") ((env.suggest commandName ((mapValues st.commandsMap).map
        (fun c => c.name))).take 3) ++ chars "?") ++
  chars ": command not found: " ++ commandName

/-- Execute after a successful registry lookup: validate, substitute,
resolve and read references, then either abort on failed reads or invoke
the coordinator with the wrapped content and the attachments. -/
def execWithCmd (env : ExecEnv) (cmd : Command) (workingDir commandName : List Char)
    (args : List (List Char)) : ExecOutcome :=
  match validateArguments args (extractRequiredArguments cmd.content cmd.argumentHint)
      commandName with
  | some msg => .errorMsg msg
  | none =>
    if ¬ (failedPaths (fileContentsOf env.fs cmd args workingDir)).isEmpty then
      .errorMsg (fileReadErrorMsg (failedPaths (fileContentsOf env.fs cmd args workingDir)))
    else
      .invoked (execWrapper ++ processedContentOf cmd args)
        (buildFileAttachments env.sniff env.extMime (fileContentsOf env.fs cmd args workingDir))

/-- Execute (executor.go) up to the coordinator call.  A successful run
ends in the invoked outcome carrying exactly the prompt and attachments
passed to coordinator.Run; error returns before that point carry the
error message. -/
def executeCommand (env : ExecEnv) (st : RegistryState) (workingDir : List Char)
    (commandName : List Char) (args : List (List Char)) : ExecOutcome :=
  if commandName = chars "help" then .helpCreated
  else
    match findCommandModel st commandName with
    | none => .errorMsg (notFoundMsg env st commandName)
    | some cmd => execWithCmd env cmd workingDir commandName args

/-- A concrete collaborator environment for tests and witnesses. -/
def plainEnv (fs : List Char → Option (List Char)) : ExecEnv :=
  { fs := fs
    sniff := fun _ => chars "text/plain; charset=utf-8"
    extMime := fun _ => []
    suggest := fun _ _ => [] }

def testCommand (name content hint : List Char) : Command :=
  { name := name, nsp := [], description := [], argumentHint := hint,
    allowedTools := [], content := content, path := chars "/p/.crush/commands/x.md",
    source := chars "project" }

example :
    executeCommand
      (plainEnv (fun p => if p = chars "/wd/a.txt" then some (chars "hello") else none))
      { commandsMap := buildCommandsMap
          [testCommand (chars "go") (chars "Check @a.txt and @b.txt") []] }
      (chars "/wd") (chars "go") [] =
    .errorMsg (chars "failed to read referenced file: /wd/b.txt") := by decide

example :
    executeCommand
      (plainEnv (fun p => if p = chars "/wd/a.txt" then some (chars "hello") else none))
      { commandsMap := buildCommandsMap
          [testCommand (chars "go") (chars "Check @a.txt") []] }
      (chars "/wd") (chars "go") [] =
    .invoked (execWrapper ++ chars "Check @a.txt")
      [{ filePath := chars "/wd/a.txt", fileName := chars "a.txt",
         mimeType := chars "text/plain; charset=utf-8", content := chars "hello" }] := by decide

/-! ### Registry lemmas -/

/-- The last command of the slice carrying a given name (the binding that
survives last-write-wins merging). -/
def lastNamed (l : List Command) (n : List Char) : Option Command :=
  l.reverse.find? (fun c => c.name = n)

theorem find?_map_keyfix (f : List Char × Command → List Char × Command)
    (hf : ∀ kv, (f kv).1 = kv.1) (m : List (List Char × Command)) (n : List Char) :
    (m.map f).find? (fun kv => kv.1 = n) = (m.find? (fun kv => kv.1 = n)).map f := by
  induction m with
  | nil => simp
  | cons kv rest ih =>
    simp only [List.map_cons, List.find?_cons, hf kv]
    by_cases h : kv.1 = n
    · simp [h]
    · simp [h, ih]

theorem mapLookup_mapInsert (m : List (List Char × Command)) (c : Command) (n : List Char) :
    mapLookup (mapInsert m c) n = if n = c.name then some c else mapLookup m n := by
  by_cases hany : m.any (fun kv => kv.1 = c.name)
  · unfold mapInsert
    rw [if_pos (by simpa using hany)]
    unfold mapLookup
    rw [find?_map_keyfix _ (fun kv => by by_cases h : kv.1 = c.name <;> simp [h]) m n]
    by_cases hn : n = c.name
    · have hex : ∃ kv ∈ m, kv.1 = c.name := by simpa using List.any_eq_true.mp hany
      have hsome : (m.find? (fun kv => kv.1 = n)).isSome := by
        rw [List.find?_isSome]
        rcases hex with ⟨kv, hm, hk⟩
        exact ⟨kv, hm, by simp [hk, hn]⟩
      rcases Option.isSome_iff_exists.mp hsome with ⟨kv0, hkv0⟩
      have hkey : kv0.1 = n := by simpa using List.find?_some hkv0
      have hkc : kv0.1 = c.name := hkey.trans hn
      rw [hkv0, if_pos hn]
      simp [hkc]
    · rcases hfind : m.find? (fun kv => kv.1 = n) with _ | kv0
      · simp [hfind, hn]
      · have hkey : kv0.1 = n := by simpa using List.find?_some hfind
        have hkc : ¬ kv0.1 = c.name := by rw [hkey]; exact hn
        rw [hfind, if_neg hn]
        simp [hkc]
  · unfold mapInsert
    rw [if_neg (by simpa using hany)]
    unfold mapLookup
    rw [List.find?_append]
    by_cases hn : n = c.name
    · have hnone : m.find? (fun kv => kv.1 = n) = none := by
        rw [List.find?_eq_none]
        intro kv hkv
        simp only [decide_eq_true_eq]
        intro hk
        exact (by simpa using hany : ¬ ∃ kv ∈ m, kv.1 = c.name) ⟨kv, hkv, by rw [hk, hn]⟩
      rw [hnone, if_pos hn]
      simp [List.find?_cons, hn.symm]
    · rcases hfind : m.find? (fun kv => kv.1 = n) with _ | kv0
      · rw [hfind, if_neg hn]
        have : ¬ c.name = n := fun h => hn h.symm
        simp [List.find?_cons, this, mapLookup, hfind]
      · rw [hfind, if_neg hn]
        simp [mapLookup, hfind]

theorem mapLookup_buildCommandsMap (l : List Command) (n : List Char) :
    mapLookup (buildCommandsMap l) n = lastNamed l n := by
  induction l using List.reverseRecOn with
  | nil => simp [buildCommandsMap, mapLookup, lastNamed]
  | append_singleton xs c ih =>
    unfold buildCommandsMap at ih ⊢
    rw [List.foldl_append]
    simp only [List.foldl_cons, List.foldl_nil]
    rw [mapLookup_mapInsert, ih]
    unfold lastNamed
    rw [List.reverse_append]
    simp only [List.reverse_singleton, List.singleton_append, List.find?_cons]
    by_cases hn : n = c.name
    · simp [hn]
    · have : ¬ c.name = n := fun h => hn h.symm
      simp [this, hn]

theorem lastNamed_append (a b : List Command) (n : List Char) :
    lastNamed (a ++ b) n =
      if lastNamed b n = none then lastNamed a n else lastNamed b n := by
  unfold lastNamed
  rw [List.reverse_append, List.find?_append]
  rcases hb : b.reverse.find? (fun c => c.name = n) with _ | x <;> simp [hb]

/-! ### Claims C1, C3, C7: registry loading, merging and listing -/

/-- A loader failure (the loader returned a non-nil error). -/
def loaderFailed (r : Except (List Char) (List Command)) : Prop := ∃ e, r = .error e

def sampleCommand (name source : List Char) : Command :=
  { name := name, nsp := [], description := [], argumentHint := [],
    allowedTools := [], content := chars "body", path := chars "/p/x.md", source := source }

theorem exists_error_ite {c : Prop} [Decidable c] {e : List Char} {st : RegistryState} :
    (∃ x, (if c then Except.error e else Except.ok st) = Except.error x) ↔ c := by
  by_cases h : c <;> simp [h]

/-- Claim C1: after load(), for every command name present in more than
one source, findCommand(name) returns the project-sourced version if one
exists, otherwise the user/shared-config version: the loaders are merged
lowest priority first (XDG shared config, then user home, then project),
and a later insertion into the name-keyed map silently overwrites an
earlier one with the same name. -/
theorem findCommand_precedence (xdg user proj : List Command) (st : RegistryState)
    (n : List Char)
    (hload : loadCommandsModel (.ok xdg) (.ok user) (.ok proj) = .ok st) :
    (lastNamed proj n ≠ none → findCommandModel st n = lastNamed proj n) ∧
    (lastNamed proj n = none → findCommandModel st n = lastNamed (xdg ++ user) n) := by
  have hst : st = { commandsMap := buildCommandsMap (xdg ++ (user ++ proj)) } := by
    simp [loadCommandsModel, loaderErrs, loaderCommands] at hload
    exact hload.symm
  subst hst
  unfold findCommandModel
  simp only
  rw [mapLookup_buildCommandsMap, ← List.append_assoc]
  constructor
  · intro hp
    rw [lastNamed_append (xdg ++ user) proj, if_neg hp]
  · intro hp
    rw [lastNamed_append (xdg ++ user) proj, if_pos hp]

def regSampleC1 : RegistryState :=
  { commandsMap := buildCommandsMap
      [sampleCommand (chars "review-pr") (chars "user"),
       sampleCommand (chars "review-pr") (chars "user"),
       sampleCommand (chars "review-pr") (chars "project")] }

/-- Claim C1 witness: a name present in all three sources resolves to the
last project-sourced version after a successful load. -/
theorem findCommand_precedence_witness :
    findCommandModel regSampleC1 (chars "review-pr") =
      some (sampleCommand (chars "review-pr") (chars "project")) := by
  have h := (findCommand_precedence
      [sampleCommand (chars "review-pr") (chars "user")]
      [sampleCommand (chars "review-pr") (chars "user")]
      [sampleCommand (chars "review-pr") (chars "project")]
      regSampleC1 (chars "review-pr") (by rfl)).1 (by decide)
  rw [h]
  decide

/-- Claim C3 counterexample: with the two lower-priority loaders failing
and the project loader succeeding with zero commands, load() returns the
aggregated error although not all three loaders failed, refuting the
claim that it fails only when all three fail outright. -/
theorem loadCommands_counterexample :
    loadCommandsModel (.error (chars "stat failed")) (.error (chars "walk failed"))
      (.ok ([] : List Command)) =
      .error (chars "XDG config commands: stat failed\nuser home commands: walk failed") := by
  rfl

/-- Claim C3 (amended): load() fails with the aggregated error exactly
when at least one loader failed and zero commands were obtained from the
loaders that succeeded; whenever any commands were obtained, load()
returns success with the partial results. -/
theorem loadCommands_error_iff (xdg user proj : Except (List Char) (List Command)) :
    (∃ e, loadCommandsModel xdg user proj = .error e) ↔
      ((loaderFailed xdg ∨ loaderFailed user ∨ loaderFailed proj) ∧
        loaderCommands xdg ++ loaderCommands user ++ loaderCommands proj = []) := by
  rcases xdg with ex | cx <;> rcases user with eu | cu <;> rcases proj with ep | cp <;>
    simp [loadCommandsModel, loaderErrs, loaderCommands, loaderFailed,
      List.isEmpty_iff, List.append_eq_nil] <;>
    first
      | rfl
      | exact exists_error_ite

def cmdAlpha : Command := sampleCommand (chars "alpha") (chars "project")

def cmdBeta : Command := sampleCommand (chars "beta") (chars "project")

/-- Claim C7 (code bug): LoadCommands rebuilds the commandsList by
ranging over the Go commandsMap, whose iteration order is unspecified, so
for one and the same loaded contents both orders below are possible
ListCommands results and they differ: the iteration order is not stable,
contradicting the function's own documentation of a consistent order
(reloading produces the same name-to-command map, but not the same list
order). -/
theorem listCommands_order_unstable :
    validIterationList (buildCommandsMap [cmdAlpha, cmdBeta]) [cmdAlpha, cmdBeta] ∧
    validIterationList (buildCommandsMap [cmdAlpha, cmdBeta]) [cmdBeta, cmdAlpha] ∧
    [cmdAlpha, cmdBeta] ≠ [cmdBeta, cmdAlpha] := by
  refine ⟨?_, ?_, by decide⟩ <;> unfold validIterationList <;> decide

/-! ### Claims C4, C10: the metadata-block parser -/

/-- The recognized, well-indexed metadata block of a (BOM-stripped)
document: the trimmed text between the delimiters, or none when there is
no opening delimiter, no closing delimiter, or the indices are
degenerate. -/
def fmYamlBlock (c : List Char) : Option (List Char) :=
  if ¬ startsList openDelim c then none
  else
    match fmClosingIndex c with
    | none => none
    | some closingIndex =>
      let yamlStart :=
        match indexOfSub ['\n'] c with
        | some i => i + 1
        | none => 0
      if yamlStart = 0 ∨ yamlStart > c.length then none
      else if closingIndex < yamlStart then none
      else some (goTrimSpace ((c.take (min closingIndex c.length)).drop yamlStart))

/-- Claim C4 counterexample: a document with a byte-order mark and no
delimiters comes back with the mark stripped, so the body is not the
entire original document unmodified. -/
theorem parseFrontmatter_bom_counterexample :
    (parseFrontmatter (fun _ => none) (bomChar :: chars "hello")).2 = chars "hello" ∧
    (parseFrontmatter (fun _ => none) (bomChar :: chars "hello")).1 = emptyFrontmatter ∧
    chars "hello" ≠ bomChar :: chars "hello" := by
  refine ⟨by rfl, by rfl, by decide⟩

/-- Claim C4 (amended): whenever the BOM-stripped document has no
recognized well-formed metadata block, or the block is empty or
whitespace-only, or the structured data in the block fails to parse, the
parser returns the empty metadata record and the document unmodified
except for the removal of a leading byte-order mark. -/
theorem parseFrontmatter_degrades (yaml : List Char → Option Frontmatter) (content : List Char)
    (h : fmYamlBlock (stripBOM content) = none ∨
         fmYamlBlock (stripBOM content) = some [] ∨
         ∃ b, fmYamlBlock (stripBOM content) = some b ∧ yaml b = none) :
    parseFrontmatter yaml content = (emptyFrontmatter, stripBOM content) := by
  unfold parseFrontmatter
  by_cases hempty : content.isEmpty
  · have hnil : content = [] := by simpa using hempty
    subst hnil
    simp [stripBOM]
  · rw [if_neg hempty]
    unfold fmYamlBlock at h
    by_cases hpre : startsList openDelim (stripBOM content)
    · rw [if_neg (by simpa using hpre)] at h ⊢
      generalize hci : fmClosingIndex (stripBOM content) = cires at h ⊢
      rcases cires with _ | ci
      · rfl
      · simp only at h ⊢
        generalize hnl : indexOfSub ['\n'] (stripBOM content) = nlres at h ⊢
        rcases nlres with _ | i
        · simp
        · simp only at h ⊢
          by_cases hbig : i + 1 > (stripBOM content).length
          · rw [if_pos (Or.inr hbig)]
          · have hcond : ¬ (i + 1 = 0 ∨ i + 1 > (stripBOM content).length) := by
              push_neg
              exact ⟨Nat.succ_ne_zero i, by omega⟩
            rw [if_neg hcond] at h ⊢
            by_cases hlt : ci < i + 1
            · rw [if_pos hlt]
            · rw [if_neg hlt] at h ⊢
              rcases h with h | h | ⟨b, hb, hy⟩
              · exact absurd h (by simp)
              · have hbe : (goTrimSpace (((stripBOM content).take
                    (min ci (stripBOM content).length)).drop (i + 1))).isEmpty := by
                  rw [show goTrimSpace (((stripBOM content).take
                      (min ci (stripBOM content).length)).drop (i + 1)) = [] by simpa using h]
                  rfl
                rw [if_pos hbe]
              · have hbe : goTrimSpace (((stripBOM content).take
                    (min ci (stripBOM content).length)).drop (i + 1)) = b := by
                  simpa using hb
                by_cases hbem : (goTrimSpace (((stripBOM content).take
                    (min ci (stripBOM content).length)).drop (i + 1))).isEmpty
                · rw [if_pos hbem]
                · rw [if_neg hbem, hbe, hy]
    · rw [if_pos (by simpa using hpre)]

/-- Claim C4 witness: a document without delimiters comes back whole
(after BOM stripping) with an empty record. -/
theorem parseFrontmatter_degrades_witness :
    parseFrontmatter (fun _ => none) (chars "just a body") =
      (emptyFrontmatter, stripBOM (chars "just a body")) :=
  parseFrontmatter_degrades (fun _ => none) (chars "just a body") (Or.inl (by decide))

theorem dropWhile_head?_false {p : Char → Bool} {l : List Char} {c : Char}
    (h : (l.dropWhile p).head? = some c) : p c = false := by
  induction l with
  | nil => simp at h
  | cons a rest ih =>
    rw [List.dropWhile_cons] at h
    by_cases hp : p a
    · rw [if_pos hp] at h
      exact ih h
    · rw [if_neg hp] at h
      simp at h
      rw [← h]
      simpa using hp

theorem getLast?_dropWhile {p : Char → Bool} {l : List Char}
    (h : l.dropWhile p ≠ []) : (l.dropWhile p).getLast? = l.getLast? := by
  induction l with
  | nil => simp at h
  | cons a rest ih =>
    rw [List.dropWhile_cons] at h ⊢
    by_cases hp : p a
    · rw [if_pos hp] at h ⊢
      rcases hr : rest with _ | ⟨b, bs⟩
      · subst hr
        simp [List.dropWhile] at h
      · subst hr
        rw [ih h, List.getLast?_cons_cons]
    · rw [if_neg hp]

theorem goTrimSpace_head?_not_space {l : List Char} {c : Char}
    (h : (goTrimSpace l).head? = some c) : goIsSpace c = false := by
  unfold goTrimSpace at h
  rw [List.head?_reverse] at h
  have hne : (l.dropWhile goIsSpace).reverse.dropWhile goIsSpace ≠ [] := by
    intro h0
    rw [h0] at h
    simp at h
  rw [getLast?_dropWhile hne, List.getLast?_reverse] at h
  exact dropWhile_head?_false h

theorem goTrimSpace_getLast?_not_space {l : List Char} {c : Char}
    (h : (goTrimSpace l).getLast? = some c) : goIsSpace c = false := by
  unfold goTrimSpace at h
  rw [List.getLast?_reverse] at h
  exact dropWhile_head?_false h

theorem parseFrontmatter_success (yaml : List Char → Option Frontmatter) (content : List Char)
    (ci : Nat) (b : List Char) (fm : Frontmatter)
    (hci : fmClosingIndex (stripBOM content) = some ci)
    (hb : fmYamlBlock (stripBOM content) = some b)
    (hne : ¬ b.isEmpty)
    (hy : yaml b = some fm) :
    parseFrontmatter yaml content =
      ({ fm with allowedTools := splitCommaTools fm.allowedTools },
        goTrimSpace ((stripBOM content).drop (min (ci + 5) (stripBOM content).length))) := by
  by_cases hempty : content.isEmpty
  · exfalso
    have hnil : content = [] := by simpa using hempty
    subst hnil
    simp [fmYamlBlock, stripBOM, startsList, openDelim] at hb
  · unfold parseFrontmatter
    rw [if_neg hempty]
    unfold fmYamlBlock at hb
    by_cases hpre : startsList openDelim (stripBOM content)
    · rw [if_neg (by simpa using hpre)] at hb ⊢
      generalize hcig : fmClosingIndex (stripBOM content) = cires at hci hb ⊢
      subst hci
      simp only at hb ⊢
      generalize hnlg : indexOfSub ['\n'] (stripBOM content) = nlres at hb ⊢
      rcases nlres with _ | i
      · simp at hb
      · simp only at hb ⊢
        by_cases hbig : i + 1 > (stripBOM content).length
        · rw [if_pos (Or.inr hbig)] at hb
          simp at hb
        · have hcond : ¬ (i + 1 = 0 ∨ i + 1 > (stripBOM content).length) := by
            push_neg
            exact ⟨Nat.succ_ne_zero i, by omega⟩
          rw [if_neg hcond] at hb ⊢
          by_cases hlt : ci < i + 1
          · rw [if_pos hlt] at hb
            simp at hb
          · rw [if_neg hlt] at hb ⊢
            have hbe : goTrimSpace (((stripBOM content).take
                (min ci (stripBOM content).length)).drop (i + 1)) = b := by
              simpa using hb
            rw [hbe, if_neg hne, hy]
    · exfalso
      rw [if_pos (by simpa using hpre)] at hb
      simp at hb

/-- Claim C10: for every document whose metadata block is recognized,
non-empty and parses successfully, the returned body is the text after
the closing delimiter with leading and trailing whitespace stripped, so
the body never begins or ends with whitespace and is not the verbatim
remainder of the document. -/
theorem parseFrontmatter_body_trimmed (yaml : List Char → Option Frontmatter)
    (content : List Char) (ci : Nat) (b : List Char) (fm : Frontmatter)
    (hci : fmClosingIndex (stripBOM content) = some ci)
    (hb : fmYamlBlock (stripBOM content) = some b)
    (hne : ¬ b.isEmpty)
    (hy : yaml b = some fm) :
    (parseFrontmatter yaml content).2 =
      goTrimSpace ((stripBOM content).drop (min (ci + 5) (stripBOM content).length)) ∧
    (∀ c0, (parseFrontmatter yaml content).2.head? = some c0 → goIsSpace c0 = false) ∧
    (∀ c0, (parseFrontmatter yaml content).2.getLast? = some c0 → goIsSpace c0 = false) := by
  have hmain := parseFrontmatter_success yaml content ci b fm hci hb hne hy
  rw [hmain]
  exact ⟨rfl, fun c0 hc => goTrimSpace_head?_not_space hc,
    fun c0 hc => goTrimSpace_getLast?_not_space hc⟩

/-- A concrete YAML collaborator for the C10 witness. -/
def sampleYamlOracle : List Char → Option Frontmatter := fun l =>
  if l = chars "description: hi" then
    some { description := chars "hi", argumentHint := [], allowedTools := [] }
  else none

/-- Claim C10 witness: a concrete successfully parsed document, whose
body comes back trimmed. -/
theorem parseFrontmatter_body_trimmed_witness :
    (parseFrontmatter sampleYamlOracle (chars "---\ndescription: hi\n---\n  body text  \n")).2 =
      goTrimSpace ((stripBOM (chars "---\ndescription: hi\n---\n  body text  \n")).drop
        (min (19 + 5)
          (stripBOM (chars "---\ndescription: hi\n---\n  body text  \n")).length)) ∧
    (∀ c0, (parseFrontmatter sampleYamlOracle
        (chars "---\ndescription: hi\n---\n  body text  \n")).2.head? = some c0 →
        goIsSpace c0 = false) ∧
    (∀ c0, (parseFrontmatter sampleYamlOracle
        (chars "---\ndescription: hi\n---\n  body text  \n")).2.getLast? = some c0 →
        goIsSpace c0 = false) :=
  parseFrontmatter_body_trimmed sampleYamlOracle
    (chars "---\ndescription: hi\n---\n  body text  \n") 19 (chars "description: hi")
    { description := chars "hi", argumentHint := [], allowedTools := [] }
    (by decide) (by decide) (by decide) (by decide)

/-! ### Claims C5, C6: the argument engine against its specification -/

/-- The spec-side maximum positional integer referenced in a body: the
maximum over the numerals of all positional references. -/
def maxPositionalRef (content : List Char) : Nat :=
  ((posMatches content).map digitsVal).foldl max 0

/-- The spec-side extractRequirements: the all-arguments placeholder
dominates with the -1 sentinel; otherwise the maximum referenced position
(gaps included) and, for the required count, the larger of that and the
bracket count of the hint. -/
def extractRequiredArgumentsSpec (content hint : List Char) : RequiredArguments :=
  if hasAllArgsL content then
    { hasAllArguments := true, maxPositional := 0, requiredCount := -1 }
  else
    { hasAllArguments := false
      maxPositional := maxPositionalRef content
      requiredCount := (max (maxPositionalRef content) (countArgumentsFromHint hint) : Nat) }

/-- All positional numerals of a body fit the Go int. -/
def boundedNumerals (content : List Char) : Prop :=
  ∀ ds ∈ posMatches content, digitsVal ds ≤ goMaxInt

/-- Claim C5 counterexample: a positional reference whose numeral
overflows the 64-bit int is skipped by the Atoi error branch, so
maxPositional is 0 although the maximum integer referenced is 10^20-1. -/
theorem extractRequiredArguments_overflow_counterexample :
    (extractRequiredArguments (chars "$99999999999999999999") []).maxPositional = 0 ∧
    (extractRequiredArguments (chars "$99999999999999999999") []).requiredCount = 0 ∧
    maxPositionalRef (chars "$99999999999999999999") = 99999999999999999999 := by
  refine ⟨by decide, by decide, by decide⟩

theorem fold_max_atoi (ms : List (List Char)) (acc : Nat)
    (h : ∀ ds ∈ ms, digitsVal ds ≤ goMaxInt) :
    ms.foldl (fun m ds => match goAtoiDigits ds with
      | some pos => if pos > m then pos else m
      | none => m) acc = (ms.map digitsVal).foldl max acc := by
  induction ms generalizing acc with
  | nil => rfl
  | cons d rest ih =>
    simp only [List.foldl_cons, List.map_cons]
    have hd : goAtoiDigits d = some (digitsVal d) := by
      unfold goAtoiDigits
      rw [if_pos (h d (by simp))]
    rw [hd]
    have hmax : (if digitsVal d > acc then digitsVal d else acc) = max acc (digitsVal d) := by
      rcases Nat.lt_or_ge acc (digitsVal d) with hlt | hge
      · rw [if_pos hlt, Nat.max_eq_right (Nat.le_of_lt hlt)]
      · rw [if_neg (by omega), Nat.max_eq_left hge]
    rw [show (match some (digitsVal d) with
        | some pos => if pos > acc then pos else acc
        | none => acc) = max acc (digitsVal d) from hmax]
    exact ih _ (fun ds hds => h ds (by simp [hds]))

/-- Claim C5 (amended): extractRequirements returns hasAllArguments and
the -1 sentinel immediately when the all-arguments placeholder appears
(positional analysis skipped); otherwise, provided every positional
numeral fits the 64-bit int (larger numerals are skipped by the Atoi
error branch), maxPositional is the maximum integer referenced (gaps
included) and requiredCount is the maximum of that count and the number
of bracket-delimited hint tokens. -/
theorem extractRequiredArguments_amended (content hint : List Char)
    (h : boundedNumerals content) :
    extractRequiredArguments content hint = extractRequiredArgumentsSpec content hint := by
  unfold extractRequiredArguments extractRequiredArgumentsSpec
  by_cases ha : hasAllArgsL content
  · rw [if_pos ha, if_pos ha]
  · rw [if_neg ha, if_neg ha]
    simp only [RequiredArguments.mk.injEq]
    refine ⟨by trivial, fold_max_atoi _ _ h, ?_⟩
    rw [fold_max_atoi _ _ h]
    have hhint : (if hint.isEmpty then 0 else countArgumentsFromHint hint) =
        countArgumentsFromHint hint := by
      by_cases he : hint.isEmpty
      · rw [if_pos he]
        unfold countArgumentsFromHint
        rw [if_pos he]
      · rw [if_neg he]
    rw [hhint]
    rcases Nat.lt_or_ge (maxPositionalRef content)
        (countArgumentsFromHint hint) with hlt | hge
    · rw [if_pos (by unfold maxPositionalRef at hlt; omega),
        Nat.max_eq_right (Nat.le_of_lt hlt)]
    · rw [if_neg (by unfold maxPositionalRef at hge; omega),
        Nat.max_eq_left hge]
      rfl

/-- Claim C5 witness: a gap-filled body, with its numerals in range. -/
theorem extractRequiredArguments_amended_witness :
    extractRequiredArguments (chars "Use $1 and $3") [] =
      extractRequiredArgumentsSpec (chars "Use $1 and $3") [] :=
  extractRequiredArguments_amended (chars "Use $1 and $3") []
    (by unfold boundedNumerals; decide)

/-- Spec-side verbatim replacement of the all-arguments placeholder. -/
def replaceAllArgsLitF (repl : List Char) : Nat → List Char → List Char
  | 0, l => l
  | _ + 1, [] => []
  | fuel + 1, c :: rest =>
    if c = '$' then
      if startsList argsWord rest then
        repl ++ replaceAllArgsLitF repl fuel (rest.drop 4)
      else if startsList argumentsWord rest then
        repl ++ replaceAllArgsLitF repl fuel (rest.drop 9)
      else c :: replaceAllArgsLitF repl fuel rest
    else c :: replaceAllArgsLitF repl fuel rest

def replaceAllArgsLit (repl l : List Char) : List Char := replaceAllArgsLitF repl l.length l

/-- The spec-side substitute: every occurrence of the all-arguments
placeholder becomes the arguments joined by one space, inserted verbatim;
then every positional reference numbered n becomes the n-th argument when
within bounds and the empty string otherwise (zero and out-of-range both
give the empty string; with no arguments every placeholder of both
families resolves to the empty string). -/
def substituteArgumentsSpec (content : List Char) (args : List (List Char)) : List Char :=
  replacePos (fun ds =>
      if 1 ≤ digitsVal ds ∧ digitsVal ds - 1 < args.length then
        args.getD (digitsVal ds - 1) []
      else [])
    (replaceAllArgsLit (joinSpace args) content)

/-- Claim C6 counterexample: with a non-empty argument list, a positional
reference whose numeral overflows the 64-bit int is left as literal text
by the Atoi error branch instead of becoming the empty string. -/
theorem substituteArguments_overflow_counterexample :
    substituteArguments (chars "$99999999999999999999") [chars "a"] =
      chars "$99999999999999999999" ∧
    substituteArgumentsSpec (chars "$99999999999999999999") [chars "a"] = [] := by
  refine ⟨by decide, by decide⟩

theorem goExpandF_no_dollar (matched : List Char) (fuel : Nat) (tmpl : List Char)
    (h : '$' ∉ tmpl) : goExpandF matched fuel tmpl = tmpl := by
  induction fuel generalizing tmpl with
  | zero => rfl
  | succ n ih =>
    rcases tmpl with _ | ⟨c, rest⟩
    · rfl
    · have hc : ¬ c = '$' := by
        intro hc
        exact h (by simp [hc])
      simp only [goExpandF]
      rw [if_neg hc, ih rest (fun hm => h (by simp [hm]))]

theorem goExpand_no_dollar (matched tmpl : List Char) (h : '$' ∉ tmpl) :
    goExpand matched tmpl = tmpl :=
  goExpandF_no_dollar matched tmpl.length tmpl h

theorem replaceAllArgsF_eq_lit (tmpl : List Char) (h : '$' ∉ tmpl) (fuel : Nat)
    (l : List Char) : replaceAllArgsF tmpl fuel l = replaceAllArgsLitF tmpl fuel l := by
  induction fuel generalizing l with
  | zero => rfl
  | succ n ih =>
    rcases l with _ | ⟨c, rest⟩
    · rfl
    · simp only [replaceAllArgsF, replaceAllArgsLitF]
      by_cases h1 : c = '$' <;> by_cases h2 : startsList argsWord rest <;>
        by_cases h3 : startsList argumentsWord rest <;>
        simp [h1, h2, h3, goExpand_no_dollar _ _ h, ih]

theorem joinSpace_no_dollar (args : List (List Char)) (h : ∀ a ∈ args, '$' ∉ a) :
    '$' ∉ joinSpace args := by
  unfold joinSpace
  induction args with
  | nil => simp [joinWith]
  | cons a rest ih =>
    rcases rest with _ | ⟨b, bs⟩
    · simpa [joinWith] using h a (by simp)
    · intro hmem
      rw [show joinWith [' '] (a :: b :: bs) = a ++ [' '] ++ joinWith [' '] (b :: bs)
        from rfl] at hmem
      rcases List.mem_append.mp hmem with hm | hm
      · rcases List.mem_append.mp hm with hm2 | hm2
        · exact h a (by simp) hm2
        · simp at hm2
      · exact ih (fun x hx => h x (by simp [hx])) hm

theorem replacePosF_congr (f g : List Char → List Char) (fuel : Nat) (l : List Char)
    (h : ∀ ds ∈ posMatchesF fuel l, f ds = g ds) :
    replacePosF f fuel l = replacePosF g fuel l := by
  induction fuel generalizing l with
  | zero => rfl
  | succ n ih =>
    rcases l with _ | ⟨c, rest⟩
    · rfl
    · by_cases h1 : c = '$'
      · by_cases h2 : (rest.takeWhile Char.isDigit).isEmpty
        · have heq : posMatchesF (n + 1) (c :: rest) = posMatchesF n rest := by
            simp [posMatchesF, h1, h2]
          rw [heq] at h
          simp only [replacePosF]
          rw [if_pos h1, if_pos h1]
          simp only [h2, if_pos]
          rw [ih rest h]
        · have heq : posMatchesF (n + 1) (c :: rest) =
              rest.takeWhile Char.isDigit ::
                posMatchesF n (rest.drop (rest.takeWhile Char.isDigit).length) := by
            simp [posMatchesF, h1, h2]
          rw [heq] at h
          simp only [replacePosF]
          rw [if_pos h1, if_pos h1]
          simp only [h2, Bool.false_eq_true, if_false]
          rw [h _ (by simp), ih _ (fun ds hds => h ds (by simp [hds]))]
      · have heq : posMatchesF (n + 1) (c :: rest) = posMatchesF n rest := by
          simp [posMatchesF, h1]
        rw [heq] at h
        simp only [replacePosF]
        rw [if_neg h1, if_neg h1, ih rest h]

/-- Claim C6 (amended): substitute first replaces every occurrence of the
all-arguments placeholder, then replaces positional references, and with
empty args all placeholders of both families resolve to the empty string;
the replacement equals the spec-side substitution whenever no argument
contains a dollar sign (the joined arguments are fed through the regexp
replacement-template expansion, which rewrites dollar sequences) and
every positional numeral of the intermediate result fits the 64-bit int
(larger numerals are left as literal text). -/
theorem substituteArguments_amended (content : List Char) (args : List (List Char))
    (h : args = [] ∨ ((∀ a ∈ args, '$' ∉ a) ∧
      boundedNumerals (replaceAllArgsLit (joinSpace args) content))) :
    substituteArguments content args = substituteArgumentsSpec content args := by
  by_cases hae : args.isEmpty
  · have hnil : args = [] := by simpa using hae
    subst hnil
    unfold substituteArguments substituteArgumentsSpec
    rw [if_pos (show ([] : List (List Char)).isEmpty = true from rfl)]
    unfold replacePos replaceAllArgsWith replaceAllArgsLit joinSpace
    rw [show joinWith [' '] ([] : List (List Char)) = [] from rfl]
    rw [replaceAllArgsF_eq_lit [] (by simp)]
    apply replacePosF_congr
    intro ds hds
    simp
  · rcases h with h | ⟨hargs, hbound⟩
    · exact absurd (by simp [h]) hae
    · unfold substituteArguments substituteArgumentsSpec
      rw [if_neg hae]
      unfold replacePos replaceAllArgsWith replaceAllArgsLit
      rw [replaceAllArgsF_eq_lit (joinSpace args) (joinSpace_no_dollar args hargs)]
      apply replacePosF_congr
      intro ds hds
      have hdv : digitsVal ds ≤ goMaxInt := by
        apply hbound
        unfold posMatches replaceAllArgsLit
        exact hds
      have hat : goAtoiDigits ds = some (digitsVal ds) := by
        unfold goAtoiDigits
        rw [if_pos hdv]
      simp only [hat]
      by_cases h1 : 1 ≤ digitsVal ds
      · by_cases h2 : digitsVal ds - 1 < args.length <;> simp [h1, h2]
      · have h0 : digitsVal ds = 0 := by omega
        simp [h0]

/-- Claim C6 witness: the round-trip example of the claim, with its
numerals in range and dollar-free arguments. -/
theorem substituteArguments_amended_witness :
    substituteArguments (chars "Review PR $1 with priority $2")
        [chars "123", chars "high"] =
      substituteArgumentsSpec (chars "Review PR $1 with priority $2")
        [chars "123", chars "high"] :=
  substituteArguments_amended (chars "Review PR $1 with priority $2")
    [chars "123", chars "high"]
    (Or.inr ⟨by decide, by unfold boundedNumerals; decide⟩)

/-! ### Claim C8: argument validation -/

/-- The base shortfall message of validateArguments. -/
def shortfallMsg (commandName : List Char) (required : RequiredArguments)
    (args : List (List Char)) : List Char :=
  chars "command '" ++ commandName ++ chars "' requires " ++
    natChars required.requiredCount.toNat ++ chars " argument(s), but only " ++
    natChars args.length ++ chars " provided"

/-- The spec-side enumeration of missing positional slots: positions
supplied+1 through maxPositional, rendered as dollar references. -/
def missingSlots (supplied maxPositional : Nat) : List (List Char) :=
  (List.range' (supplied + 1) (maxPositional - supplied)).map (fun i => '$' :: natChars i)

/-- Claim C8 counterexample: when the hint raises the requirement above
the highest positional reference, the shortfall error enumerates no
missing slot at all: slot 2 is missing but the message never mentions
it. -/
theorem validateArguments_counterexample :
    validateArguments [chars "x"]
        (extractRequiredArguments (chars "do $1") (chars "[a] [b]")) (chars "c") =
      some (chars "command 'c' requires 2 argument(s), but only 1 provided") ∧
    containsSub (chars "command 'c' requires 2 argument(s), but only 1 provided")
      (chars "$2") = false := by
  refine ⟨by decide, by decide⟩

/-- Claim C8 (amended): validation fails exactly when (a) the command
requires zero arguments without the all-arguments placeholder and some
arguments are supplied, or (b) requiredCount is positive and fewer
arguments are supplied; in case (b) the message enumerates the missing
slots by number only up to maxPositional (slots demanded solely by the
hint beyond maxPositional are not enumerated, and when maxPositional does
not exceed the supplied count there is no enumeration at all); with the
all-arguments placeholder any count is accepted. -/
theorem validateArguments_amended (args : List (List Char)) (required : RequiredArguments)
    (name : List Char) :
    ((validateArguments args required name ≠ none) ↔
      (required.hasAllArguments = false ∧
        ((required.requiredCount = 0 ∧ args ≠ []) ∨
         (0 < required.requiredCount ∧ (args.length : Int) < required.requiredCount)))) ∧
    (required.hasAllArguments = false → 0 < required.requiredCount →
      (args.length : Int) < required.requiredCount →
      args.length < required.maxPositional →
      validateArguments args required name =
        some (shortfallMsg name required args ++ chars ". Missing: " ++
          joinWith (chars ", ") (missingSlots args.length required.maxPositional))) ∧
    (required.hasAllArguments = false → 0 < required.requiredCount →
      (args.length : Int) < required.requiredCount →
      required.maxPositional ≤ args.length →
      validateArguments args required name = some (shortfallMsg name required args)) := by
  unfold validateArguments
  by_cases h1 : required.hasAllArguments
  · simp [h1]
  · rw [if_neg (by simpa using h1)]
    have h1f : required.hasAllArguments = false := by simpa using h1
    by_cases h2 : required.requiredCount = 0
    · rw [if_pos h2]
      refine ⟨?_, ?_, ?_⟩
      · by_cases h3 : args.length > 0
        · rw [if_pos h3]
          simp [h1f, h2]
          intro h4
          rw [h4] at h3
          simp at h3
        · rw [if_neg h3]
          simp [h1f, h2]
          rcases args with _ | ⟨a, as⟩
          · rfl
          · simp at h3
      · intro _ hrc
        exfalso
        omega
      · intro _ hrc
        exfalso
        omega
    · rw [if_neg h2]
      by_cases h3 : (args.length : Int) < required.requiredCount
      · rw [if_pos h3]
        have h0rc : 0 < required.requiredCount := by omega
        refine ⟨?_, ?_, ?_⟩
        · constructor
          · intro _
            exact ⟨h1f, Or.inr ⟨h0rc, h3⟩⟩
          · intro _
            by_cases h4 : required.maxPositional > 0 ∧
                ¬ ((List.range' (args.length + 1)
                  (required.maxPositional - args.length)).map
                  (fun i => '$' :: natChars i)).isEmpty
            · rw [if_pos h4]
              simp
            · rw [if_neg h4]
              simp
        · intro _ _ _ hmax
          have hnonempty : ¬ ((List.range' (args.length + 1)
              (required.maxPositional - args.length)).map
              (fun i => '$' :: natChars i)).isEmpty := by
            simp [List.isEmpty_iff, List.range'_eq_nil]
            omega
          rw [if_pos ⟨by omega, hnonempty⟩]
          rfl
        · intro _ _ _ hmax
          have hempty : ((List.range' (args.length + 1)
              (required.maxPositional - args.length)).map
              (fun i => '$' :: natChars i)).isEmpty := by
            simp [List.isEmpty_iff, List.range'_eq_nil]
            omega
          rw [if_neg (by
            intro hc
            exact hc.2 hempty)]
          rfl
      · rw [if_neg h3]
        refine ⟨?_, ?_, ?_⟩
        · simp [h1f]
          refine ⟨fun hrc => absurd hrc h2, fun _ => by omega⟩
        · intro _ _ hlt _
          exact absurd hlt h3
        · intro _ _ hlt _
          exact absurd hlt h3

/-- Claim C8 witness: a three-slot command invoked with one argument
fails and enumerates slots 2 and 3. -/
theorem validateArguments_amended_witness :
    validateArguments [chars "x"]
        { hasAllArguments := false, maxPositional := 3, requiredCount := 3 } (chars "c") =
      some (shortfallMsg (chars "c")
          { hasAllArguments := false, maxPositional := 3, requiredCount := 3 }
          [chars "x"] ++
        chars ". Missing: " ++ joinWith (chars ", ") (missingSlots 1 3)) :=
  (validateArguments_amended [chars "x"]
      { hasAllArguments := false, maxPositional := 3, requiredCount := 3 }
      (chars "c")).2.1 (by decide) (by decide) (by decide) (by decide)

/-! ### Claim C2: the executor aborts on failed reads -/

theorem goCleanPath_ne_nil (p : List Char) : goCleanPath p ≠ [] := by
  unfold goCleanPath
  split_ifs with h1 h2 h3 <;> simp_all [List.isEmpty_iff]

theorem resolveOnePath_ne_nil (workingDir fp : List Char) :
    resolveOnePath workingDir fp ≠ [] := by
  unfold resolveOnePath
  split_ifs <;> exact goCleanPath_ne_nil _

theorem mem_failedPaths {fs : List Char → Option (List Char)} {paths : List (List Char)}
    {p : List Char} (hp : p ∈ paths) (hfail : (fs p).getD [] = []) (hne : p ≠ []) :
    p ∈ failedPaths (readFileContents fs paths) := by
  unfold failedPaths readFileContents
  apply List.mem_map.mpr
  refine ⟨{ path := p, content := [] }, ?_, rfl⟩
  apply List.mem_filter.mpr
  constructor
  · apply List.mem_map.mpr
    refine ⟨p, hp, ?_⟩
    rcases hfs : fs p with _ | c
    · rfl
    · rw [hfs] at hfail
      simp only [Option.getD_some] at hfail
      rw [hfail]
  · simp [List.isEmpty_iff, hne]

/-- Claim C2 counterexample: a command referencing an empty-but-readable
file and a missing file fails with plural wording naming both paths, not
an error naming exactly the missing path: exactly one referenced file is
unreadable, yet the message is plural and also names the readable file
with empty content. -/
theorem execute_fileerror_counterexample :
    executeCommand (plainEnv (fun p => if p = chars "/wd/a.txt" then some [] else none))
        { commandsMap := buildCommandsMap
            [testCommand (chars "go") (chars "Check @a.txt and @b.txt") []] }
        (chars "/wd") (chars "go") [] =
      .errorMsg (chars "failed to read referenced file(s): /wd/a.txt, /wd/b.txt") ∧
    (plainEnv (fun p => if p = chars "/wd/a.txt" then some [] else none)).fs
      (chars "/wd/a.txt") = some [] ∧
    (plainEnv (fun p => if p = chars "/wd/a.txt" then some [] else none)).fs
      (chars "/wd/b.txt") = none := by
  refine ⟨by decide, by decide, by decide⟩

/-- Claim C2 (amended): if any file referenced by the command reads back
with empty content -- missing, unreadable, or existing but empty (the
file system returns none or some []) -- Execute returns the single
aggregated error over the detected failed paths (singular wording for
exactly one such path, plural wording otherwise), every referenced path
whose read is empty appears among them, and the agent-invocation
collaborator receives zero calls so no attachments are passed. -/
theorem execute_aborts_on_failed_read (env : ExecEnv) (st : RegistryState)
    (workingDir commandName : List Char) (args : List (List Char)) (cmd : Command)
    (hname : commandName ≠ chars "help")
    (hfound : findCommandModel st commandName = some cmd)
    (hvalid : validateArguments args
      (extractRequiredArguments cmd.content cmd.argumentHint) commandName = none)
    (hbad : ∃ p ∈ resolvedPathsOf cmd args workingDir, (env.fs p).getD [] = []) :
    executeCommand env st workingDir commandName args =
      .errorMsg (fileReadErrorMsg (failedPaths (fileContentsOf env.fs cmd args workingDir))) ∧
    (∀ p ∈ resolvedPathsOf cmd args workingDir, (env.fs p).getD [] = [] →
      p ∈ failedPaths (fileContentsOf env.fs cmd args workingDir)) ∧
    (∀ prompt atts, executeCommand env st workingDir commandName args ≠
      .invoked prompt atts) := by
  have hmem : ∀ p ∈ resolvedPathsOf cmd args workingDir, (env.fs p).getD [] = [] →
      p ∈ failedPaths (fileContentsOf env.fs cmd args workingDir) := by
    intro p hp hf
    have hne : p ≠ [] := by
      unfold resolvedPathsOf resolveFilePaths at hp
      rcases List.mem_map.mp hp with ⟨r, _, hr⟩
      rw [← hr]
      exact resolveOnePath_ne_nil _ _
    unfold fileContentsOf
    exact mem_failedPaths hp hf hne
  have hfe : ¬ (failedPaths (fileContentsOf env.fs cmd args workingDir)).isEmpty := by
    rcases hbad with ⟨p, hp, hf⟩
    have hin := hmem p hp hf
    intro hempty
    rw [List.isEmpty_iff.mp hempty] at hin
    simp at hin
  have hexec : executeCommand env st workingDir commandName args =
      .errorMsg (fileReadErrorMsg (failedPaths (fileContentsOf env.fs cmd args workingDir))) := by
    unfold executeCommand
    rw [if_neg hname, hfound]
    show execWithCmd env cmd workingDir commandName args = _
    unfold execWithCmd
    rw [hvalid]
    show (if ¬ (failedPaths (fileContentsOf env.fs cmd args workingDir)).isEmpty then
        ExecOutcome.errorMsg
          (fileReadErrorMsg (failedPaths (fileContentsOf env.fs cmd args workingDir)))
      else
        ExecOutcome.invoked (execWrapper ++ processedContentOf cmd args)
          (buildFileAttachments env.sniff env.extMime
            (fileContentsOf env.fs cmd args workingDir))) = _
    rw [if_pos hfe]
  refine ⟨hexec, hmem, fun prompt atts => by rw [hexec]; simp⟩

def envC2w : ExecEnv :=
  plainEnv (fun p => if p = chars "/wd/a.txt" then some []
    else if p = chars "/wd/b.txt" then some (chars "hello") else none)

def cmdC2w : Command := testCommand (chars "go") (chars "Check @a.txt and @b.txt") []

def stC2w : RegistryState := { commandsMap := buildCommandsMap [cmdC2w] }

/-- Claim C2 witness: the first referenced file exists but is empty (the
file system returns some []) while the second is readable and non-empty;
the execution aborts with singular wording naming exactly the empty
file. -/
theorem execute_aborts_on_failed_read_witness :
    executeCommand envC2w stC2w (chars "/wd") (chars "go") [] =
      .errorMsg (chars "failed to read referenced file: /wd/a.txt") := by
  have h := (execute_aborts_on_failed_read envC2w stC2w (chars "/wd") (chars "go") [] cmdC2w
      (by decide) (by decide) (by decide)
      ⟨chars "/wd/a.txt", by decide, by decide⟩).1
  rw [h]
  decide

/-! ### Claim C9: command-name derivation -/

/-- The walk filter of the loaders: case-insensitive .md match. -/
def goToLowerStr (l : List Char) : List Char := l.map Char.toLower

/-- The extension stripping deriveCommandName actually performs: first a
trailing lowercase .md, then a trailing uppercase .MD. -/
def stripMdExt (s : List Char) : List Char := trimSufL (trimSufL s mdSuf) mdSufU

/-- A well-formed path segment: non-empty, free of slashes and
backslashes, and not a dot element. -/
def wfSeg (s : List Char) : Prop :=
  s ≠ [] ∧ '/' ∉ s ∧ '\\' ∉ s ∧ s ≠ ['.'] ∧ s ≠ ['.', '.']

instance (s : List Char) : Decidable (wfSeg s) :=
  decidable_of_iff (s ≠ [] ∧ '/' ∉ s ∧ '\\' ∉ s ∧ s ≠ ['.'] ∧ s ≠ ['.', '.']) Iff.rfl

/-- Claim C9 counterexample: cmds/a.Md is loaded (its lowercased path
ends in .md) but its derived name keeps the extension, because only the
exact suffixes .md and .MD are stripped. -/
theorem deriveCommandName_counterexample :
    deriveCommandName (chars "cmds/a.Md") (chars "cmds") = (chars "a.Md", []) ∧
    endsList mdSuf (goToLowerStr (chars "cmds/a.Md")) = true ∧
    chars "a.Md" ≠ chars "a" := by
  refine ⟨by decide, by decide, by decide⟩

theorem startsList_append_stop (p : List Char) (c : Char) (hc : c ∉ p) :
    ∀ a b : List Char, startsList p (a ++ c :: b) = startsList p a := by
  induction p with
  | nil => intro a b; rfl
  | cons q ps ih =>
    intro a b
    rcases a with _ | ⟨x, xs⟩
    · have hq : ¬ (q = c) := by
        intro h
        exact hc (by simp [h])
      simp [startsList, hq]
    · simp only [List.cons_append, startsList, List.append_eq]
      rw [ih (fun hm => hc (by simp [hm])) xs b]

theorem startsList_length_le {p l : List Char} (h : startsList p l = true) :
    p.length ≤ l.length := by
  induction p generalizing l with
  | nil => simp
  | cons q ps ih =>
    rcases l with _ | ⟨x, xs⟩
    · simp [startsList] at h
    · simp only [startsList, Bool.and_eq_true] at h
      have := ih h.2
      simp
      omega

theorem endsList_append_slash (suf a s : List Char) (hsuf : '/' ∉ suf) :
    endsList suf (a ++ '/' :: s) = endsList suf s := by
  unfold endsList
  have hrev : (a ++ '/' :: s).reverse = s.reverse ++ '/' :: a.reverse := by
    rw [List.reverse_append]
    simp
  rw [hrev, startsList_append_stop suf.reverse '/' (by simpa using hsuf)]

theorem endsList_length_le {suf s : List Char} (h : endsList suf s = true) :
    suf.length ≤ s.length := by
  unfold endsList at h
  have := startsList_length_le h
  simpa using this

theorem trimSufL_append_slash (a s suf : List Char) (hsuf : '/' ∉ suf) :
    trimSufL (a ++ '/' :: s) suf = a ++ '/' :: trimSufL s suf := by
  unfold trimSufL
  rw [endsList_append_slash suf a s hsuf]
  by_cases h : endsList suf s
  · rw [if_pos h, if_pos h]
    have hlen : suf.length ≤ s.length := endsList_length_le h
    have harith : (a ++ '/' :: s).length - suf.length =
        a.length + (1 + (s.length - suf.length)) := by
      simp
      omega
    rw [harith, List.take_append_eq_append_take,
      List.take_of_length_le (by omega),
      show a.length + (1 + (s.length - suf.length)) - a.length =
        (s.length - suf.length) + 1 by omega,
      List.take_succ_cons]
  · rw [if_neg h, if_neg h]

theorem indexOfSub_single_at (c : Char) (xs ys : List Char) (h : c ∉ xs) :
    indexOfSub [c] (xs ++ c :: ys) = some xs.length := by
  induction xs with
  | nil => simp [indexOfSub, startsList]
  | cons x xr ih =>
    have hx : ¬ (c = x) := by
      intro hc
      exact h (by simp [hc])
    rw [show (x :: xr) ++ c :: ys = x :: (xr ++ c :: ys) from rfl]
    unfold indexOfSub
    rw [show startsList [c] (x :: (xr ++ c :: ys)) = false by simp [startsList, hx]]
    simp only [Bool.false_eq_true, if_false]
    rw [ih (fun hm => h (by simp [hm]))]
    simp

theorem indexOfSub_single_none (c : Char) (l : List Char) (h : c ∉ l) :
    indexOfSub [c] l = none := by
  induction l with
  | nil => simp [indexOfSub]
  | cons x xr ih =>
    have hx : ¬ (c = x) := by
      intro hc
      exact h (by simp [hc])
    unfold indexOfSub
    rw [show startsList [c] (x :: xr) = false by simp [startsList, hx]]
    simp only [Bool.false_eq_true, if_false]
    rw [ih (fun hm => h (by simp [hm]))]

theorem lastIdxOfChar_none (c : Char) (l : List Char) (h : c ∉ l) :
    lastIdxOfChar c l = none := by
  unfold lastIdxOfChar
  rw [indexOfSub_single_none c l.reverse (by simpa using h)]

theorem lastIdxOfChar_append_slash (a s : List Char) (hs : '/' ∉ s) :
    lastIdxOfChar '/' (a ++ '/' :: s) = some a.length := by
  unfold lastIdxOfChar
  have hrev : (a ++ '/' :: s).reverse = s.reverse ++ '/' :: a.reverse := by
    rw [List.reverse_append]
    simp
  rw [hrev, indexOfSub_single_at '/' s.reverse a.reverse (by simpa using hs)]
  show some ((a ++ '/' :: s).length - 1 - s.reverse.length) = some a.length
  congr 1
  simp only [List.length_append, List.length_cons, List.length_reverse]
  omega

theorem splitOnChar_no_sep (c : Char) (l : List Char) (h : c ∉ l) :
    splitOnChar c l = [l] := by
  induction l with
  | nil => rfl
  | cons x xr ih =>
    have hx : ¬ (x = c) := by
      intro hc
      exact h (by simp [hc])
    unfold splitOnChar
    rw [ih (fun hm => h (by simp [hm]))]
    simp [hx]

theorem splitOnChar_append_sep (x r : List Char) (hx : '/' ∉ x) :
    splitOnChar '/' (x ++ '/' :: r) = x :: splitOnChar '/' r := by
  induction x with
  | nil =>
    show splitOnChar '/' ('/' :: r) = [] :: splitOnChar '/' r
    simp [splitOnChar]
  | cons y yr ih =>
    have hy : ¬ (y = '/') := by
      intro hc
      exact hx (by simp [hc])
    show splitOnChar '/' (y :: (yr ++ '/' :: r)) = (y :: yr) :: splitOnChar '/' r
    simp only [splitOnChar]
    rw [ih (fun hm => hx (by simp [hm]))]
    simp [hy]

theorem splitOn_join_slash (dirs : List (List Char)) (tail : List Char)
    (hd : dirs ≠ []) (h : ∀ d ∈ dirs, '/' ∉ d) :
    splitOnChar '/' (joinWith ['/'] dirs ++ '/' :: tail) =
      dirs ++ splitOnChar '/' tail := by
  induction dirs with
  | nil => simp at hd
  | cons d rest ih =>
    rcases rest with _ | ⟨e, er⟩
    · show splitOnChar '/' (d ++ '/' :: tail) = [d] ++ splitOnChar '/' tail
      rw [splitOnChar_append_sep d tail (h d (by simp))]
      rfl
    · show splitOnChar '/' ((d ++ ['/'] ++ joinWith ['/'] (e :: er)) ++ '/' :: tail) = _
      rw [show (d ++ ['/'] ++ joinWith ['/'] (e :: er)) ++ '/' :: tail =
          d ++ '/' :: (joinWith ['/'] (e :: er) ++ '/' :: tail) by simp]
      rw [splitOnChar_append_sep d _ (h d (by simp)),
        ih (by simp) (fun d2 hd2 => h d2 (by simp [hd2]))]
      rfl

theorem splitOn_join (dirs : List (List Char)) (hd : dirs ≠ [])
    (h : ∀ d ∈ dirs, '/' ∉ d) :
    splitOnChar '/' (joinWith ['/'] dirs) = dirs := by
  induction dirs with
  | nil => simp at hd
  | cons d rest ih =>
    rcases rest with _ | ⟨e, er⟩
    · show splitOnChar '/' d = [d]
      exact splitOnChar_no_sep '/' d (h d (by simp))
    · show splitOnChar '/' (d ++ ['/'] ++ joinWith ['/'] (e :: er)) = _
      rw [show d ++ ['/'] ++ joinWith ['/'] (e :: er) =
          d ++ '/' :: joinWith ['/'] (e :: er) by simp]
      rw [splitOnChar_append_sep d _ (h d (by simp)),
        ih (by simp) (fun d2 hd2 => h d2 (by simp [hd2]))]

theorem cleanFold_wf (rooted : Bool) (dirs : List (List Char))
    (h : ∀ d ∈ dirs, wfSeg d) :
    ∀ acc : List (List Char), dirs.foldl
      (fun acc seg =>
        if seg.isEmpty ∨ seg = ['.'] then acc
        else if seg = ['.', '.'] then
          match acc with
          | [] => if rooted then [] else [seg]
          | h :: t => if h = ['.', '.'] then seg :: h :: t else t
        else seg :: acc) acc = dirs.reverse ++ acc := by
  induction dirs with
  | nil => intro acc; rfl
  | cons d rest ih =>
    intro acc
    rcases h d (by simp) with ⟨h1, _, _, h4, h5⟩
    rw [List.foldl_cons]
    rw [show (if d.isEmpty ∨ d = ['.'] then acc
        else if d = ['.', '.'] then
          match acc with
          | [] => if rooted then [] else [d]
          | h :: t => if h = ['.', '.'] then d :: h :: t else t
        else d :: acc) = d :: acc by
      rw [if_neg (by simp [List.isEmpty_iff, h1, h4]), if_neg h5]]
    rw [ih (fun d2 hd2 => h d2 (by simp [hd2])) (d :: acc)]
    simp

theorem cleanFold_wf_trailing (rooted : Bool) (dirs : List (List Char))
    (h : ∀ d ∈ dirs, wfSeg d) :
    cleanFold rooted (dirs ++ [[]]) = dirs.reverse := by
  unfold cleanFold
  rw [List.foldl_append, cleanFold_wf rooted dirs h []]
  simp

theorem joinWith_head? (d : List Char) (rest : List (List Char)) (hd : d ≠ []) :
    (joinWith ['/'] (d :: rest)).head? = d.head? := by
  rcases rest with _ | ⟨e, er⟩
  · rfl
  · show (d ++ ['/'] ++ joinWith ['/'] (e :: er)).head? = d.head?
    rw [List.append_assoc, List.head?_append]
    rcases d with _ | ⟨x, xs⟩
    · simp at hd
    · rfl

/-- Clean of a well-formed joined directory path with a trailing slash:
the trailing slash is removed and nothing else changes. -/
theorem goCleanPath_join_slash (dirs : List (List Char)) (hd : dirs ≠ [])
    (h : ∀ d ∈ dirs, wfSeg d) :
    goCleanPath (joinWith ['/'] dirs ++ ['/']) = joinWith ['/'] dirs := by
  rcases dirs with _ | ⟨d, rest⟩
  · simp at hd
  · have hsplit : splitOnChar '/' (joinWith ['/'] (d :: rest) ++ '/' :: []) =
        (d :: rest) ++ [[]] :=
      splitOn_join_slash (d :: rest) [] (by simp) (fun d2 hd2 => (h d2 hd2).2.1)
    have hne : joinWith ['/'] (d :: rest) ++ ['/'] ≠ [] := by simp
    have hhead : (joinWith ['/'] (d :: rest) ++ ['/']).head? ≠ some '/' := by
      rw [List.head?_append, joinWith_head? d rest (h d (by simp)).1]
      rcases hdc : d with _ | ⟨x, xs⟩
      · exact absurd hdc (h d (by simp)).1
      · have hx : x ≠ '/' := by
          intro hc
          exact (h d (by simp)).2.1 (by rw [hdc, hc]; simp)
        simp [hx]
    unfold goCleanPath
    rw [if_neg (by simp [List.isEmpty_iff]), if_neg hhead]
    rw [show joinWith ['/'] (d :: rest) ++ ['/'] =
        joinWith ['/'] (d :: rest) ++ '/' :: [] from rfl]
    rw [hsplit, cleanFold_wf_trailing false (d :: rest) h, List.reverse_reverse]
    rw [if_neg (by
      simp [List.isEmpty_iff]
      intro hjoin
      have := joinWith_head? d rest (h d (by simp)).1
      rw [hjoin] at this
      rcases hdc : d with _ | ⟨x, xs⟩
      · exact (h d (by simp)).1 hdc
      · rw [hdc] at this
        simp at this)]

theorem goDirPath_no_slash (s : List Char) (hs : '/' ∉ s) : goDirPath s = ['.'] := by
  unfold goDirPath
  rw [lastIdxOfChar_none '/' s hs]
  rfl

theorem goDirPath_append_slash (a s : List Char) (hs : '/' ∉ s) :
    goDirPath (a ++ '/' :: s) = goCleanPath (a ++ ['/']) := by
  unfold goDirPath
  rw [lastIdxOfChar_append_slash a s hs]
  show goCleanPath ((a ++ '/' :: s).take (a.length + 1)) = _
  congr 1
  rw [List.take_append_eq_append_take, List.take_of_length_le (by omega),
    show a.length + 1 - a.length = 1 by omega]
  rfl

theorem goBasePath_no_slash (s : List Char) (hne : s ≠ []) (hs : '/' ∉ s) :
    goBasePath s = s := by
  rcases hsrv : s.reverse with _ | ⟨c0, cr⟩
  · exact absurd (List.reverse_eq_nil_iff.mp hsrv) hne
  · have hc0s : c0 ∈ s := by
      have hmem : c0 ∈ s.reverse := by
        rw [hsrv]
        simp
      simpa using hmem
    have hc0 : ¬ (c0 = '/') := fun hc => hs (hc ▸ hc0s)
    have hdw : List.dropWhile (fun c => decide (c = '/')) s.reverse = s.reverse := by
      rw [hsrv, List.dropWhile_cons, if_neg (by simpa using hc0)]
    unfold goBasePath
    rw [if_neg (by simpa [List.isEmpty_iff] using hne)]
    rw [hdw, List.reverse_reverse]
    rw [if_neg (by simpa [List.isEmpty_iff] using hne)]
    rw [lastIdxOfChar_none '/' s hs]

theorem goBasePath_append_slash (a s : List Char) (hne : s ≠ []) (hs : '/' ∉ s) :
    goBasePath (a ++ '/' :: s) = s := by
  have hrev : (a ++ '/' :: s).reverse = s.reverse ++ '/' :: a.reverse := by
    rw [List.reverse_append]
    simp
  rcases hsrv : s.reverse with _ | ⟨c0, cr⟩
  · exact absurd (List.reverse_eq_nil_iff.mp hsrv) hne
  · have hc0s : c0 ∈ s := by
      have hmem : c0 ∈ s.reverse := by
        rw [hsrv]
        simp
      simpa using hmem
    have hc0 : ¬ (c0 = '/') := fun hc => hs (hc ▸ hc0s)
    have hdw : List.dropWhile (fun c => decide (c = '/')) (a ++ '/' :: s).reverse =
        (a ++ '/' :: s).reverse := by
      rw [hrev, hsrv]
      show List.dropWhile (fun c => decide (c = '/')) (c0 :: (cr ++ '/' :: a.reverse)) =
        c0 :: (cr ++ '/' :: a.reverse)
      rw [List.dropWhile_cons, if_neg (by simpa using hc0)]
    unfold goBasePath
    rw [if_neg (by simp [List.isEmpty_iff])]
    rw [hdw, List.reverse_reverse]
    rw [if_neg (by simp [List.isEmpty_iff])]
    rw [lastIdxOfChar_append_slash a s hs]
    show (a ++ '/' :: s).drop (a.length + 1) = s
    rw [List.drop_append_eq_append_drop, List.drop_eq_nil_of_le (by omega),
      show a.length + 1 - a.length = 1 by omega]
    rfl

theorem map_if_ne_id (s : List Char) (c r : Char) (h : c ∉ s) :
    s.map (fun x => if x = c then r else x) = s := by
  induction s with
  | nil => rfl
  | cons x xs ih =>
    have hx : ¬ (x = c) := fun hc => h (by simp [hc])
    simp only [List.map_cons, if_neg hx, ih (fun hm => h (by simp [hm]))]

theorem map_colon_join (dirs : List (List Char)) (h : ∀ d ∈ dirs, '/' ∉ d) :
    (joinWith ['/'] dirs).map (fun x => if x = '/' then ':' else x) =
      joinWith [':'] dirs := by
  induction dirs with
  | nil => rfl
  | cons d rest ih =>
    rcases rest with _ | ⟨e, er⟩
    · exact map_if_ne_id d '/' ':' (h d (by simp))
    · show (d ++ ['/'] ++ joinWith ['/'] (e :: er)).map _ =
        d ++ [':'] ++ joinWith [':'] (e :: er)
      rw [List.map_append, List.map_append, map_if_ne_id d '/' ':' (h d (by simp)),
        ih (fun d2 hd2 => h d2 (by simp [hd2]))]
      rfl

theorem not_mem_joinWith (sep : List Char) (parts : List (List Char)) (c : Char)
    (hsep : c ∉ sep) (h : ∀ x ∈ parts, c ∉ x) : c ∉ joinWith sep parts := by
  induction parts with
  | nil => simp [joinWith]
  | cons d rest ih =>
    rcases rest with _ | ⟨e, er⟩
    · simpa [joinWith] using h d (by simp)
    · show c ∉ d ++ sep ++ joinWith sep (e :: er)
      intro hmem
      rcases List.mem_append.mp hmem with hm | hm
      · rcases List.mem_append.mp hm with hm2 | hm2
        · exact h d (by simp) hm2
        · exact hsep hm2
      · exact ih (fun x hx => h x (by simp [hx])) hm

theorem joinWith_append_singleton (dirs : List (List Char)) (stem : List Char)
    (hd : dirs ≠ []) :
    joinWith ['/'] (dirs ++ [stem]) = joinWith ['/'] dirs ++ '/' :: stem := by
  induction dirs with
  | nil => simp at hd
  | cons d rest ih =>
    rcases rest with _ | ⟨e, er⟩
    · show d ++ ['/'] ++ joinWith ['/'] [stem] = d ++ '/' :: stem
      simp [joinWith]
    · show d ++ ['/'] ++ joinWith ['/'] ((e :: er) ++ [stem]) =
        (d ++ ['/'] ++ joinWith ['/'] (e :: er)) ++ '/' :: stem
      rw [ih (by simp)]
      simp

theorem joinWith_wf_not_special (dirs : List (List Char)) (hd : dirs ≠ [])
    (h : ∀ d ∈ dirs, wfSeg d) :
    joinWith ['/'] dirs ≠ ['.'] ∧ joinWith ['/'] dirs ≠ [] ∧
      joinWith ['/'] dirs ≠ ['/'] := by
  rcases dirs with _ | ⟨d, rest⟩
  · simp at hd
  · rcases rest with _ | ⟨e, er⟩
    · refine ⟨(h d (by simp)).2.2.2.1, (h d (by simp)).1, ?_⟩
      intro hc
      exact (h d (by simp)).2.1 (by rw [show joinWith ['/'] [d] = d from rfl] at hc; simp [hc])
    · have hdef : joinWith ['/'] (d :: e :: er) =
          d ++ ['/'] ++ joinWith ['/'] (e :: er) := rfl
      have hdl : 0 < d.length := List.length_pos.mpr (h d (by simp)).1
      have hlen : 2 ≤ (joinWith ['/'] (d :: e :: er)).length := by
        rw [hdef]
        simp [List.length_append]
        omega
      refine ⟨?_, ?_, ?_⟩ <;> intro hc <;> rw [hc] at hlen <;> simp at hlen

/-- Claim C9 (amended): for a command file whose path is, relative to the
loader root, a well-formed segment path dirs/stem, the derived name is the
directory segments joined by colons followed by the stem with one trailing
.md and then one trailing .MD suffix stripped (case-sensitively, at most
once each -- not a case-insensitive extension strip), and the namespace is
the colon-joined directory segments; with no directory segments the name
is the stripped stem and the namespace is empty. -/
theorem deriveCommandName_amended (path base stem : List Char)
    (dirs : List (List Char))
    (hrel : goRel base path = some (joinWith ['/'] (dirs ++ [stem])))
    (hdirs : ∀ d ∈ dirs, wfSeg d)
    (hstem2 : wfSeg (stripMdExt stem)) :
    deriveCommandName path base =
      (if dirs = [] then stripMdExt stem
       else joinWith [':'] dirs ++ ':' :: stripMdExt stem,
       if dirs = [] then [] else joinWith [':'] dirs) := by
  by_cases hd : dirs = []
  · subst hd
    have hrp : relPathOf path base = stripMdExt stem := by
      unfold relPathOf
      rw [hrel]
      rfl
    have hnos : '/' ∉ stripMdExt stem := hstem2.2.1
    unfold deriveCommandName
    rw [hrp, goDirPath_no_slash _ hnos, if_pos (Or.inl rfl),
      goBasePath_no_slash _ hstem2.1 hnos]
    simp
  · have hrp : relPathOf path base =
        joinWith ['/'] dirs ++ '/' :: stripMdExt stem := by
      unfold relPathOf
      rw [hrel]
      show trimSufL (trimSufL (joinWith ['/'] (dirs ++ [stem])) mdSuf) mdSufU = _
      rw [joinWith_append_singleton dirs stem hd,
        trimSufL_append_slash _ _ mdSuf (by decide),
        trimSufL_append_slash _ _ mdSufU (by decide)]
      rfl
    have hdirp : goDirPath (joinWith ['/'] dirs ++ '/' :: stripMdExt stem) =
        joinWith ['/'] dirs := by
      rw [goDirPath_append_slash _ _ hstem2.2.1,
        goCleanPath_join_slash dirs hd hdirs]
    have hspecial := joinWith_wf_not_special dirs hd hdirs
    have hbase : goBasePath (joinWith ['/'] dirs ++ '/' :: stripMdExt stem) =
        stripMdExt stem := goBasePath_append_slash _ _ hstem2.1 hstem2.2.1
    have hns : namespaceOf (joinWith ['/'] dirs) = joinWith [':'] dirs := by
      unfold namespaceOf
      rw [map_colon_join dirs (fun d hd2 => (hdirs d hd2).2.1),
        map_if_ne_id _ '\\' ':'
          (not_mem_joinWith [':'] dirs '\\' (by decide)
            (fun d hd2 => (hdirs d hd2).2.2.1))]
    unfold deriveCommandName
    rw [hrp, hdirp]
    rw [if_neg (by
      rintro (hc | hc | hc)
      · exact hspecial.1 hc
      · exact hspecial.2.1 (List.isEmpty_iff.mp hc)
      · exact hspecial.2.2 hc)]
    rw [hbase, hns, if_neg hd, if_neg hd]
    simp

/-- Witness for the amended C9 theorem: the spec example
frontend/components/button.md under root cmds. -/
theorem deriveCommandName_amended_witness :
    deriveCommandName (chars "cmds/frontend/components/button.md") (chars "cmds") =
      (chars "frontend:components:button", chars "frontend:components") := by
  have h := deriveCommandName_amended (chars "cmds/frontend/components/button.md")
    (chars "cmds") (chars "button.md") [chars "frontend", chars "components"]
    (by decide) (by decide) (by decide)
  rw [h]
  decide
